import Mathlib

/-!
Verification development for the ArtClipper core: the local region
detection pipeline (connected-component scan, box merging, recursive
gutter splitting) from `src/utils/imageUtils.ts`, the external
detection-result normalizer from `src/services/geminiService.ts`, and
the batch queue orchestrator from `src/App.tsx`.

Modelling conventions: JavaScript numbers are modelled exactly over `ℚ`
(all quantities the core manipulates are integers or small-denominator
rationals, so the float computations are exact up to rounding noise the
spec explicitly tolerates); pixel buffers (`Uint8ClampedArray`) are
total functions from byte index to channel value; pixel coordinates are
naturals, with every JavaScript subtraction that the control flow keeps
non-negative mapped to natural subtraction.
-/

set_option linter.unusedVariables false

namespace ArtClipper

/-- Normalized output region, `{x, y, width, height}` in unit-square
coordinates (the geometric part of the `BoundingBox` record of
`types.ts`; the nondeterministically generated string id is omitted). -/
structure Region where
  x : ℚ
  y : ℚ
  width : ℚ
  height : ℚ
deriving DecidableEq, Repr, Inhabited

/-- Bounding box as manipulated by the merger; ids are modelled as
naturals since the merger only copies them around. -/
structure BoundingBox where
  id : ℕ
  x : ℚ
  y : ℚ
  width : ℚ
  height : ℚ
deriving DecidableEq, Repr, Inhabited

/-! ## BoxMerger (`imageUtils.ts`, `doBoxesIntersect` / `mergeTwoBoxes` /
`mergeOverlappingBoxes`) -/

/-- Overlap test with expansion buffer (`doBoxesIntersect`). -/
def doBoxesIntersect (a b : BoundingBox) (buffer : ℚ) : Bool :=
  decide (a.x < b.x + b.width + buffer) &&
  decide (a.x + a.width + buffer > b.x) &&
  decide (a.y < b.y + b.height + buffer) &&
  decide (a.y + a.height + buffer > b.y)

/-- Union bounding box of two boxes, keeping the first id
(`mergeTwoBoxes`). -/
def mergeTwoBoxes (a b : BoundingBox) : BoundingBox :=
  let x := min a.x b.x
  let y := min a.y b.y
  let maxX := max (a.x + a.width) (b.x + b.width)
  let maxY := max (a.y + a.height) (b.y + b.height)
  { id := a.id, x := x, y := y, width := maxX - x, height := maxY - y }

/-- Default expansion buffer of the merger (0.005 normalized units). -/
def mergeBuffer : ℚ := 1 / 200

/-- Inner `j` loop of `mergeOverlappingBoxes` for a fixed `i`: on an
intersecting pair, box `j` is merged into box `i` and removed, and the
scan continues at the same `j` (the source's `splice` followed by
`j--`); otherwise `j` advances.  Returns the updated list and whether
any merge happened. -/
def mergeScanFrom (bs : List BoundingBox) (i j : ℕ) (flag : Bool) :
    List BoundingBox × Bool :=
  if h : j < bs.length then
    if doBoxesIntersect (bs.getD i default) (bs.getD j default) mergeBuffer then
      mergeScanFrom
        ((bs.set i (mergeTwoBoxes (bs.getD i default) (bs.getD j default))).eraseIdx j)
        i j true
    else
      mergeScanFrom bs i (j + 1) flag
  else
    (bs, flag)
termination_by bs.length - j
decreasing_by
  · have hlen : ((bs.set i (mergeTwoBoxes (bs.getD i default) (bs.getD j default))).eraseIdx j).length
        = bs.length - 1 := by
      rw [List.length_eraseIdx_of_lt (by simpa using h)]
      simp
    omega
  · omega

theorem mergeScanFrom_length_le (bs : List BoundingBox) (i j : ℕ) (flag : Bool) :
    (mergeScanFrom bs i j flag).1.length ≤ bs.length := by
  induction bs, i, j, flag using mergeScanFrom.induct with
  | case1 bs i j flag h hint ih =>
    rw [mergeScanFrom, dif_pos h, if_pos hint]
    refine ih.trans ?_
    rw [List.length_eraseIdx_of_lt (by simpa using h)]
    simp
  | case2 bs i j flag h hint ih =>
    rw [mergeScanFrom, dif_pos h, if_neg hint]
    exact ih
  | case3 bs i j flag h =>
    rw [mergeScanFrom, dif_neg h]

theorem mergeScanFrom_flag_true (bs : List BoundingBox) (i j : ℕ) (flag : Bool) :
    flag = true → (mergeScanFrom bs i j flag).2 = true := by
  induction bs, i, j, flag using mergeScanFrom.induct with
  | case1 bs i j flag h hint ih =>
    rw [mergeScanFrom, dif_pos h, if_pos hint]
    intro _
    exact ih rfl
  | case2 bs i j flag h hint ih =>
    rw [mergeScanFrom, dif_pos h, if_neg hint]
    exact ih
  | case3 bs i j flag h =>
    rw [mergeScanFrom, dif_neg h]
    exact fun ht => ht

theorem mergeScanFrom_snd_false (bs : List BoundingBox) (i j : ℕ) (flag : Bool) :
    (mergeScanFrom bs i j flag).2 = false → (mergeScanFrom bs i j flag).1 = bs := by
  induction bs, i, j, flag using mergeScanFrom.induct with
  | case1 bs i j flag h hint ih =>
    rw [mergeScanFrom, dif_pos h, if_pos hint]
    intro hf
    rw [mergeScanFrom_flag_true _ _ _ _ rfl] at hf
    exact absurd hf (by simp)
  | case2 bs i j flag h hint ih =>
    rw [mergeScanFrom, dif_pos h, if_neg hint]
    exact ih
  | case3 bs i j flag h =>
    rw [mergeScanFrom, dif_neg h]
    intro _
    rfl

theorem mergeScanFrom_merged_lt (bs : List BoundingBox) (i j : ℕ) (flag : Bool) :
    flag = false → (mergeScanFrom bs i j flag).2 = true →
    (mergeScanFrom bs i j flag).1.length < bs.length := by
  induction bs, i, j, flag using mergeScanFrom.induct with
  | case1 bs i j flag h hint ih =>
    rw [mergeScanFrom, dif_pos h, if_pos hint]
    intro _ _
    have hle := mergeScanFrom_length_le
      ((bs.set i (mergeTwoBoxes (bs.getD i default) (bs.getD j default))).eraseIdx j) i j true
    rw [List.length_eraseIdx_of_lt (by simpa using h), List.length_set] at hle
    omega
  | case2 bs i j flag h hint ih =>
    rw [mergeScanFrom, dif_pos h, if_neg hint]
    exact ih
  | case3 bs i j flag h =>
    rw [mergeScanFrom, dif_neg h]
    intro hf ht
    rw [hf] at ht
    exact absurd ht (by simp)

/-- Outer `i` loop of one full pass of `mergeOverlappingBoxes`. -/
def mergePassFrom (bs : List BoundingBox) (i : ℕ) (flag : Bool) :
    List BoundingBox × Bool :=
  if h : i < bs.length then
    mergePassFrom (mergeScanFrom bs i (i + 1) false).1 (i + 1)
      (flag || (mergeScanFrom bs i (i + 1) false).2)
  else
    (bs, flag)
termination_by bs.length - i
decreasing_by
  have := mergeScanFrom_length_le bs i (i + 1) false
  omega

theorem mergePassFrom_flag_true (bs : List BoundingBox) (i : ℕ) (flag : Bool) :
    flag = true → (mergePassFrom bs i flag).2 = true := by
  induction bs, i, flag using mergePassFrom.induct with
  | case1 bs i flag h ih =>
    rw [mergePassFrom, dif_pos h]
    intro ht
    exact ih (by rw [ht, Bool.true_or])
  | case2 bs i flag h =>
    rw [mergePassFrom, dif_neg h]
    exact fun ht => ht

theorem mergePassFrom_scan_false (bs : List BoundingBox) (i : ℕ) (flag : Bool)
    (h : (mergePassFrom bs i flag).2 = false) (hlt : i < bs.length) :
    (mergeScanFrom bs i (i + 1) false).2 = false := by
  rw [mergePassFrom, dif_pos hlt] at h
  by_contra hne
  have hx : (mergeScanFrom bs i (i + 1) false).2 = true := by
    cases hy : (mergeScanFrom bs i (i + 1) false).2 <;> simp_all
  rw [hx] at h
  rw [mergePassFrom_flag_true _ _ _ (by rw [Bool.or_true])] at h
  exact absurd h (by simp)

theorem mergePassFrom_snd_false (bs : List BoundingBox) (i : ℕ) (flag : Bool) :
    (mergePassFrom bs i flag).2 = false → (mergePassFrom bs i flag).1 = bs := by
  induction bs, i, flag using mergePassFrom.induct with
  | case1 bs i flag h ih =>
    intro hf
    have hscan2 : (mergeScanFrom bs i (i + 1) false).2 = false :=
      mergePassFrom_scan_false bs i flag hf h
    have hscan1 : (mergeScanFrom bs i (i + 1) false).1 = bs :=
      mergeScanFrom_snd_false bs i (i + 1) false hscan2
    rw [mergePassFrom, dif_pos h] at hf ⊢
    exact (ih hf).trans hscan1
  | case2 bs i flag h =>
    rw [mergePassFrom, dif_neg h]
    intro _
    rfl

theorem mergePassFrom_length_le (bs : List BoundingBox) (i : ℕ) (flag : Bool) :
    (mergePassFrom bs i flag).1.length ≤ bs.length := by
  induction bs, i, flag using mergePassFrom.induct with
  | case1 bs i flag h ih =>
    rw [mergePassFrom, dif_pos h]
    exact ih.trans (mergeScanFrom_length_le bs i (i + 1) false)
  | case2 bs i flag h =>
    rw [mergePassFrom, dif_neg h]

theorem mergePassFrom_merged_lt (bs : List BoundingBox) (i : ℕ) (flag : Bool) :
    flag = false → (mergePassFrom bs i flag).2 = true →
    (mergePassFrom bs i flag).1.length < bs.length := by
  induction bs, i, flag using mergePassFrom.induct with
  | case1 bs i flag h ih =>
    intro hf ht
    rcases hx : (mergeScanFrom bs i (i + 1) false).2 with _ | _
    · have hscan1 : (mergeScanFrom bs i (i + 1) false).1 = bs :=
        mergeScanFrom_snd_false bs i (i + 1) false hx
      rw [mergePassFrom, dif_pos h] at ht ⊢
      have := ih (by rw [hf, hx, Bool.or_false]) (by rwa [hf] at ht ⊢)
      rw [hscan1] at this
      rw [hf]
      rw [hf] at this
      convert this using 3
      rw [hscan1, hx]
    · have hlt : (mergeScanFrom bs i (i + 1) false).1.length < bs.length :=
        mergeScanFrom_merged_lt bs i (i + 1) false rfl hx
      rw [mergePassFrom, dif_pos h]
      exact lt_of_le_of_lt (mergePassFrom_length_le _ _ _) hlt
  | case2 bs i flag h =>
    rw [mergePassFrom, dif_neg h]
    intro hf ht
    rw [hf] at ht
    exact absurd ht (by simp)

/-- Outer fixed-point `while (hasMerged)` loop of `mergeOverlappingBoxes`. -/
def mergeLoop (bs : List BoundingBox) : List BoundingBox :=
  if h : (mergePassFrom bs 0 false).2 = true then
    mergeLoop (mergePassFrom bs 0 false).1
  else
    (mergePassFrom bs 0 false).1
termination_by bs.length
decreasing_by
  exact mergePassFrom_merged_lt bs 0 false rfl h

/-- Iterative merge of overlapping boxes (`mergeOverlappingBoxes`). -/
def mergeOverlappingBoxes (bs : List BoundingBox) : List BoundingBox :=
  mergeLoop bs

/-- No two distinct members of the list intersect under the buffered
intersection test of the merger. -/
def pairwiseNonIntersecting (bs : List BoundingBox) : Prop :=
  ∀ j < bs.length, ∀ i < j,
    doBoxesIntersect (bs.getD i default) (bs.getD j default) mergeBuffer = false

instance (bs : List BoundingBox) : Decidable (pairwiseNonIntersecting bs) := by
  unfold pairwiseNonIntersecting
  infer_instance

theorem mergeScanFrom_of_clean (bs : List BoundingBox) (i j : ℕ) (flag : Bool)
    (h : ∀ k, j ≤ k → k < bs.length →
      doBoxesIntersect (bs.getD i default) (bs.getD k default) mergeBuffer = false) :
    mergeScanFrom bs i j flag = (bs, flag) := by
  induction bs, i, j, flag using mergeScanFrom.induct with
  | case1 bs i j flag hlt hint ih =>
    rw [h j le_rfl hlt] at hint
    exact absurd hint (by simp)
  | case2 bs i j flag hlt hint ih =>
    rw [mergeScanFrom, dif_pos hlt, if_neg hint]
    exact ih fun k hk hk2 => h k (by omega) hk2
  | case3 bs i j flag hlt =>
    rw [mergeScanFrom, dif_neg hlt]

theorem mergePassFrom_of_clean (bs : List BoundingBox) (i : ℕ) (flag : Bool)
    (h : ∀ l < bs.length, ∀ k, i ≤ k → k < l →
      doBoxesIntersect (bs.getD k default) (bs.getD l default) mergeBuffer = false) :
    mergePassFrom bs i flag = (bs, flag) := by
  induction bs, i, flag using mergePassFrom.induct with
  | case1 bs i flag hlt ih =>
    have hscan : mergeScanFrom bs i (i + 1) false = (bs, false) :=
      mergeScanFrom_of_clean bs i (i + 1) false
        (fun k hk hk2 => h k hk2 i le_rfl hk)
    rw [mergePassFrom, dif_pos hlt, hscan]
    have := ih (by rw [hscan]; exact fun l hl k hk hkl => h l hl k (by omega) hkl)
    rw [hscan] at this
    simpa using this
  | case2 bs i flag hlt =>
    rw [mergePassFrom, dif_neg hlt]

theorem mergeScanFrom_clean_of_false (bs : List BoundingBox) (i j : ℕ) (flag : Bool) :
    (mergeScanFrom bs i j flag).2 = false →
    ∀ k, j ≤ k → k < bs.length →
      doBoxesIntersect (bs.getD i default) (bs.getD k default) mergeBuffer = false := by
  induction bs, i, j, flag using mergeScanFrom.induct with
  | case1 bs i j flag hlt hint ih =>
    rw [mergeScanFrom, dif_pos hlt, if_pos hint]
    intro h
    rw [mergeScanFrom_flag_true _ _ _ _ rfl] at h
    exact absurd h (by simp)
  | case2 bs i j flag hlt hint ih =>
    rw [mergeScanFrom, dif_pos hlt, if_neg hint]
    intro h k hk hk2
    rcases Nat.eq_or_lt_of_le hk with heq | hgt
    · rw [← heq]
      cases hx : doBoxesIntersect (bs.getD i default) (bs.getD j default) mergeBuffer
      · rfl
      · exact absurd hx hint
    · exact ih h k hgt hk2
  | case3 bs i j flag hlt =>
    intro _ k hk hk2
    omega

theorem mergePassFrom_clean_of_false (bs : List BoundingBox) (i : ℕ) (flag : Bool) :
    (mergePassFrom bs i flag).2 = false →
    ∀ l < bs.length, ∀ k, i ≤ k → k < l →
      doBoxesIntersect (bs.getD k default) (bs.getD l default) mergeBuffer = false := by
  induction bs, i, flag using mergePassFrom.induct with
  | case1 bs i flag hlt ih =>
    intro h
    have hscan2 : (mergeScanFrom bs i (i + 1) false).2 = false :=
      mergePassFrom_scan_false bs i flag h hlt
    have hscan1 : (mergeScanFrom bs i (i + 1) false).1 = bs :=
      mergeScanFrom_snd_false bs i (i + 1) false hscan2
    rw [mergePassFrom, dif_pos hlt] at h
    have hrec := ih h
    rw [hscan1] at hrec
    intro l hl k hk hkl
    rcases Nat.eq_or_lt_of_le hk with heq | hgt
    · rw [← heq]
      exact mergeScanFrom_clean_of_false bs i (i + 1) false hscan2 l (by omega) hl
    · exact hrec l hl k hgt hkl
  | case2 bs i flag hlt =>
    intro _ l hl k hk hkl
    omega

theorem mergeLoop_of_clean (bs : List BoundingBox)
    (h : pairwiseNonIntersecting bs) : mergeLoop bs = bs := by
  have hpass : mergePassFrom bs 0 false = (bs, false) :=
    mergePassFrom_of_clean bs 0 false
      (fun l hl k _ hkl => h l hl k hkl)
  rw [mergeLoop]
  simp [hpass]

theorem mergeLoop_clean (bs : List BoundingBox) :
    pairwiseNonIntersecting (mergeLoop bs) := by
  induction bs using mergeLoop.induct with
  | case1 bs h ih =>
    rw [mergeLoop, dif_pos h]
    exact ih
  | case2 bs h =>
    rw [mergeLoop, dif_neg h]
    have hfalse : (mergePassFrom bs 0 false).2 = false := by
      cases hx : (mergePassFrom bs 0 false).2
      · rfl
      · exact absurd hx h
    have hid : (mergePassFrom bs 0 false).1 = bs :=
      mergePassFrom_snd_false bs 0 false hfalse
    rw [hid]
    intro l hl k hkl
    exact mergePassFrom_clean_of_false bs 0 false hfalse l hl k (Nat.zero_le k) hkl

/-- C2: the merge operation is idempotent, and it returns any pairwise
non-intersecting input unchanged (intersection tested with the fixed
0.005 buffer). -/
theorem mergeOverlappingBoxes_idempotent :
    (∀ bs : List BoundingBox,
      mergeOverlappingBoxes (mergeOverlappingBoxes bs) = mergeOverlappingBoxes bs) ∧
    (∀ bs : List BoundingBox,
      pairwiseNonIntersecting bs → mergeOverlappingBoxes bs = bs) := by
  constructor
  · intro bs
    exact mergeLoop_of_clean (mergeLoop bs) (mergeLoop_clean bs)
  · intro bs h
    exact mergeLoop_of_clean bs h

/-- C2 witness: merging a concrete overlapping list twice gives the same
result as merging it once, and a concrete pairwise non-intersecting list
is returned unchanged. -/
theorem mergeOverlappingBoxes_idempotent_witness :
    (mergeOverlappingBoxes (mergeOverlappingBoxes
        [⟨0, 0, 0, 1/4, 1/4⟩, ⟨1, 1/8, 1/8, 1/4, 1/4⟩])
      = mergeOverlappingBoxes [⟨0, 0, 0, 1/4, 1/4⟩, ⟨1, 1/8, 1/8, 1/4, 1/4⟩]) ∧
    (pairwiseNonIntersecting [⟨0, 0, 0, 1/10, 1/10⟩, ⟨1, 1/2, 1/2, 1/10, 1/10⟩] ∧
      mergeOverlappingBoxes [⟨0, 0, 0, 1/10, 1/10⟩, ⟨1, 1/2, 1/2, 1/10, 1/10⟩]
        = [⟨0, 0, 0, 1/10, 1/10⟩, ⟨1, 1/2, 1/2, 1/10, 1/10⟩]) := by
  refine ⟨mergeOverlappingBoxes_idempotent.1 _, ?_, ?_⟩
  · with_unfolding_all decide
  · exact mergeOverlappingBoxes_idempotent.2 _ (by with_unfolding_all decide)

/-! ## GutterSplitter (`imageUtils.ts`, `getRowEnergy` / `getColEnergy` /
`dilateProfile` / `splitBox`)

A pixel buffer is a total function `data : ℕ → ℕ` from byte index to
channel value, RGBA interleaved, exactly as the flat
`Uint8ClampedArray` the source indexes with `(y * width + x) * 4 + c`. -/

/-- Absolute difference of two channel values (`Math.abs(a - b)`). -/
def chanDiff (a b : ℕ) : ℕ :=
  ((a : ℤ) - (b : ℤ)).natAbs

/-- Summed absolute RGB difference of the pixels starting at byte
indices `idx1` and `idx2`. -/
def pixelDist (data : ℕ → ℕ) (idx1 idx2 : ℕ) : ℕ :=
  chanDiff (data idx1) (data idx2) +
  chanDiff (data (idx1 + 1)) (data (idx2 + 1)) +
  chanDiff (data (idx1 + 2)) (data (idx2 + 2))

/-- Accumulation step shared by the energy loops: skip the pair when
both alpha samples are below 10, otherwise add its distance to the
running total and bump the pair count. -/
def energyStep (data : ℕ → ℕ) (idx1 idx2 : ℕ) (acc : ℕ × ℕ) : ℕ × ℕ :=
  if data (idx1 + 3) < 10 ∧ data (idx2 + 3) < 10 then acc
  else (acc.1 + pixelDist data idx1 idx2, acc.2 + 1)

/-- Gradient energy of row `y` between `minX` and `maxX`
(`getRowEnergy`): mean absolute RGB difference over horizontally
adjacent pixel pairs `x, x+1` for `minX ≤ x < maxX`. -/
def getRowEnergy (data : ℕ → ℕ) (width y minX maxX : ℕ) : ℚ :=
  let r := (List.range' minX (maxX - minX)).foldl
    (fun acc x => energyStep data ((y * width + x) * 4) ((y * width + (x + 1)) * 4) acc)
    (0, 0)
  if 0 < r.2 then (r.1 : ℚ) / (r.2 : ℚ) else 0

/-- Gradient energy of column `x` between `minY` and `maxY`
(`getColEnergy`); the `height` argument is carried but, as in the
source, unused. -/
def getColEnergy (data : ℕ → ℕ) (width height x minY maxY : ℕ) : ℚ :=
  let r := (List.range' minY (maxY - minY)).foldl
    (fun acc y => energyStep data ((y * width + x) * 4) (((y + 1) * width + x) * 4) acc)
    (0, 0)
  if 0 < r.2 then (r.1 : ℚ) / (r.2 : ℚ) else 0

/-- Sliding-window maximum over `profile[start..stop]` starting from 0,
as in the inner loop of `dilateProfile`. -/
def windowMax (profile : List ℚ) (start stop : ℕ) : ℚ :=
  (List.range' start (stop + 1 - start)).foldl
    (fun m j => if profile.getD j 0 > m then profile.getD j 0 else m) 0

/-- 1-D dilation (max filter) of a profile array (`dilateProfile`);
radius 0 returns the profile unchanged. -/
def dilateProfile (profile : List ℚ) (radius : ℕ) : List ℚ :=
  if radius = 0 then profile
  else (List.range profile.length).map
    (fun i => windowMax profile (i - radius) (min (profile.length - 1) (i + radius)))

/-- Dilation radius derived from the 1-100 sensitivity threshold:
`Math.floor(Math.max(0, 40 - threshold * 0.4))`. -/
def dilationRadiusOf (threshold : ℚ) : ℕ :=
  (Int.toNat ⌊max 0 (40 - threshold * (2/5))⌋)

/-- Minimum gap size derived from the threshold:
`Math.max(4, Math.floor(16 - threshold * 0.15))`. -/
def minGapOf (threshold : ℚ) : ℕ :=
  max 4 (Int.toNat ⌊16 - threshold * (3/20)⌋)

theorem minGapOf_pos (threshold : ℚ) : 1 ≤ minGapOf threshold :=
  le_trans (by norm_num) (le_max_left 4 _)

/-- Accepted gutter gap `(gapStart, y)` inside `[lo, hi]`: the bounds
the acceptance test of the scan guarantees. -/
abbrev GutterGap (lo hi : ℕ) : Type :=
  {p : ℕ × ℕ // lo + 30 ≤ p.1 ∧ p.1 < p.2 ∧ p.2 + 30 ≤ hi}

/-- Gap scan of `splitBox` over the remaining positions `ys` (the flat
`energy < 5` run tracker with state `gapStart`): a run that ends at an
energetic position is accepted when it is at least `minGap` long and
leaves at least 30px on both sides; otherwise the tracker resets. -/
def findGapScan (energy : ℕ → ℚ) (lo hi minGap : ℕ) (hm : 1 ≤ minGap) :
    List ℕ → Option ℕ → Option (GutterGap lo hi)
  | [], _ => none
  | y :: ys, gapStart =>
    if energy y < 5 then
      match gapStart with
      | none => findGapScan energy lo hi minGap hm ys (some y)
      | some s => findGapScan energy lo hi minGap hm ys (some s)
    else
      match gapStart with
      | some s =>
        if hacc : minGap ≤ y - s ∧ 30 ≤ s - lo ∧ 30 ≤ hi - y then
          some ⟨(s, y), by omega⟩
        else
          findGapScan energy lo hi minGap hm ys none
      | none => findGapScan energy lo hi minGap hm ys none

/-- Full gap scan over `lo ≤ y ≤ hi` with initially unset `gapStart`. -/
def findGap (energy : ℕ → ℚ) (lo hi minGap : ℕ) (hm : 1 ≤ minGap) :
    Option (GutterGap lo hi) :=
  findGapScan energy lo hi minGap hm (List.range' lo (hi + 1 - lo)) none

/-- Raw row-energy profile array of the rect (the `rawProfiles` array
of `splitBox`, one entry per row `minY + i`). -/
def rowRawProfile (data : ℕ → ℕ) (width minX maxX minY maxY : ℕ) : List ℚ :=
  (List.range (maxY - minY + 1)).map
    (fun i => getRowEnergy data width (minY + i) minX maxX)

/-- Dilated row-energy profile, indexed by absolute row coordinate
(the source reads `yProfiles[y - minY]`). -/
def rowEnergyAt (data : ℕ → ℕ) (width minX maxX minY maxY : ℕ) (threshold : ℚ) :
    ℕ → ℚ :=
  fun y => (dilateProfile (rowRawProfile data width minX maxX minY maxY)
    (dilationRadiusOf threshold)).getD (y - minY) 0

/-- Raw column-energy profile array of the rect (`rawColProfiles`). -/
def colRawProfile (data : ℕ → ℕ) (width height minX maxX minY maxY : ℕ) : List ℚ :=
  (List.range (maxX - minX + 1)).map
    (fun i => getColEnergy data width height (minX + i) minY maxY)

/-- Dilated column-energy profile, indexed by absolute column
(the source reads `xProfiles[x - minX]`). -/
def colEnergyAt (data : ℕ → ℕ) (width height minX maxX minY maxY : ℕ) (threshold : ℚ) :
    ℕ → ℚ :=
  fun x => (dilateProfile (colRawProfile data width height minX maxX minY maxY)
    (dilationRadiusOf threshold)).getD (x - minX) 0

/-- Scan for a horizontal gutter (Y-cut) of `splitBox`. -/
def findRowGap (data : ℕ → ℕ) (width minX maxX minY maxY : ℕ) (threshold : ℚ) :
    Option (GutterGap minY maxY) :=
  findGap (rowEnergyAt data width minX maxX minY maxY threshold)
    minY maxY (minGapOf threshold) (minGapOf_pos threshold)

/-- Scan for a vertical gutter (X-cut) of `splitBox`. -/
def findColGap (data : ℕ → ℕ) (width height minX maxX minY maxY : ℕ) (threshold : ℚ) :
    Option (GutterGap minX maxX) :=
  findGap (colEnergyAt data width height minX maxX minY maxY threshold)
    minX maxX (minGapOf threshold) (minGapOf_pos threshold)

/-- Region emitted for a rect, in normalized coordinates. -/
def regionOfRect (minX minY maxX maxY width height : ℕ) : Region :=
  ⟨(minX : ℚ) / (width : ℚ), (minY : ℚ) / (height : ℚ),
   ((maxX - minX : ℕ) : ℚ) / (width : ℚ), ((maxY - minY : ℕ) : ℚ) / (height : ℚ)⟩

/-- Recursive X-Y cut of a rect (`splitBox`): emit the rect unchanged if
a side is under 80px, otherwise split at the first accepted horizontal
gutter, else at the first accepted vertical gutter, else emit the rect.
The background-color arguments are carried but, as in the source,
unused. -/
def splitBox (minX minY maxX maxY : ℕ) (data : ℕ → ℕ) (width height : ℕ)
    (bgR bgG bgB : ℕ) (threshold : ℚ) : List Region :=
  if maxX - minX < 80 ∨ maxY - minY < 80 then
    [regionOfRect minX minY maxX maxY width height]
  else
    match findRowGap data width minX maxX minY maxY threshold with
    | some g =>
      splitBox minX minY maxX (g.1.1 - 1) data width height bgR bgG bgB threshold ++
      splitBox minX g.1.2 maxX maxY data width height bgR bgG bgB threshold
    | none =>
      match findColGap data width height minX maxX minY maxY threshold with
      | some g =>
        splitBox minX minY (g.1.1 - 1) maxY data width height bgR bgG bgB threshold ++
        splitBox g.1.2 minY maxX maxY data width height bgR bgG bgB threshold
      | none => [regionOfRect minX minY maxX maxY width height]
termination_by (maxY - minY) + (maxX - minX)
decreasing_by
  · obtain ⟨h1, h2, h3⟩ := g.2
    omega
  · obtain ⟨h1, h2, h3⟩ := g.2
    omega
  · obtain ⟨h1, h2, h3⟩ := g.2
    omega
  · obtain ⟨h1, h2, h3⟩ := g.2
    omega

/-! ### Energy and profile lemmas -/

theorem foldl_energyStep_eq (skip : ℕ → Prop) [DecidablePred skip] (f : ℕ → ℕ)
    (l : List ℕ) (a b : ℕ) :
    l.foldl (fun acc x => if skip x then acc else (acc.1 + f x, acc.2 + 1)) (a, b)
      = (a + ((l.filter (fun x => ¬ skip x)).map f).sum,
         b + (l.filter (fun x => ¬ skip x)).length) := by
  induction l generalizing a b with
  | nil => simp
  | cons x xs ih =>
    by_cases hx : skip x
    · simp only [List.foldl_cons, if_pos hx, List.filter_cons,
        decide_eq_true_eq]
      rw [ih]
      simp [hx]
    · simp only [List.foldl_cons, if_neg hx, List.filter_cons,
        decide_eq_true_eq]
      rw [ih]
      simp only [hx, not_false_iff, if_pos, decide_not]
      simp [hx]
      constructor <;> omega

theorem getRowEnergy_eq_filtered (data : ℕ → ℕ) (width y minX maxX : ℕ) :
    getRowEnergy data width y minX maxX =
      (if ((List.range' minX (maxX - minX)).filter
          (fun x => ¬ (data ((y * width + x) * 4 + 3) < 10 ∧
            data ((y * width + (x + 1)) * 4 + 3) < 10))).length = 0 then 0
      else
        ((((List.range' minX (maxX - minX)).filter
          (fun x => ¬ (data ((y * width + x) * 4 + 3) < 10 ∧
            data ((y * width + (x + 1)) * 4 + 3) < 10))).map
          (fun x => pixelDist data ((y * width + x) * 4) ((y * width + (x + 1)) * 4))).sum : ℚ) /
        (((List.range' minX (maxX - minX)).filter
          (fun x => ¬ (data ((y * width + x) * 4 + 3) < 10 ∧
            data ((y * width + (x + 1)) * 4 + 3) < 10))).length : ℚ)) := by
  unfold getRowEnergy energyStep
  rw [foldl_energyStep_eq
    (fun x => data ((y * width + x) * 4 + 3) < 10 ∧ data ((y * width + (x + 1)) * 4 + 3) < 10)
    (fun x => pixelDist data ((y * width + x) * 4) ((y * width + (x + 1)) * 4))]
  simp only [Nat.zero_add]
  by_cases h : ((List.range' minX (maxX - minX)).filter
      (fun x => ¬ (data ((y * width + x) * 4 + 3) < 10 ∧
        data ((y * width + (x + 1)) * 4 + 3) < 10))).length = 0
  · rw [if_neg (by omega), if_pos h]
  · rw [if_pos (Nat.pos_of_ne_zero h), if_neg h]

theorem foldMax_init_le (p : List ℚ) (l : List ℕ) (a : ℚ) :
    a ≤ l.foldl (fun m j => if p.getD j 0 > m then p.getD j 0 else m) a := by
  induction l generalizing a with
  | nil => simp
  | cons x xs ih =>
    simp only [List.foldl_cons]
    refine le_trans ?_ (ih _)
    by_cases hx : p.getD x 0 > a
    · rw [if_pos hx]; exact le_of_lt hx
    · rw [if_neg hx]

theorem foldMax_mem_le (p : List ℚ) (l : List ℕ) (a : ℚ) (j : ℕ) (hj : j ∈ l) :
    p.getD j 0 ≤ l.foldl (fun m i => if p.getD i 0 > m then p.getD i 0 else m) a := by
  induction l generalizing a with
  | nil => simp at hj
  | cons x xs ih =>
    simp only [List.foldl_cons]
    rcases List.mem_cons.1 hj with heq | hmem
    · subst heq
      refine le_trans ?_ (foldMax_init_le p xs _)
      by_cases hx : p.getD j 0 > a
      · rw [if_pos hx]
      · rw [if_neg hx]; exact le_of_not_lt hx
    · exact ih _ hmem

theorem foldMax_zero (p : List ℚ) (l : List ℕ) (h : ∀ j ∈ l, ¬ p.getD j 0 > 0) :
    l.foldl (fun m i => if p.getD i 0 > m then p.getD i 0 else m) 0 = 0 := by
  induction l with
  | nil => simp
  | cons x xs ih =>
    simp only [List.foldl_cons]
    rw [if_neg (h x (List.mem_cons_self x xs))]
    exact ih fun j hj => h j (List.mem_cons_of_mem x hj)

theorem foldMax_eq_init_or_mem (p : List ℚ) (l : List ℕ) (a : ℚ) :
    l.foldl (fun m i => if p.getD i 0 > m then p.getD i 0 else m) a = a ∨
    ∃ j ∈ l, l.foldl (fun m i => if p.getD i 0 > m then p.getD i 0 else m) a = p.getD j 0 := by
  induction l generalizing a with
  | nil => exact Or.inl rfl
  | cons x xs ih =>
    simp only [List.foldl_cons]
    by_cases hx : p.getD x 0 > a
    · rw [if_pos hx]
      rcases ih (p.getD x 0) with heq | ⟨j, hj, hje⟩
      · exact Or.inr ⟨x, List.mem_cons_self x xs, heq⟩
      · exact Or.inr ⟨j, List.mem_cons_of_mem x hj, hje⟩
    · rw [if_neg hx]
      rcases ih a with heq | ⟨j, hj, hje⟩
      · exact Or.inl heq
      · exact Or.inr ⟨j, List.mem_cons_of_mem x hj, hje⟩

theorem windowMax_ge (p : List ℚ) (start stop j : ℕ)
    (h1 : start ≤ j) (h2 : j ≤ stop) :
    p.getD j 0 ≤ windowMax p start stop := by
  unfold windowMax
  exact foldMax_mem_le p _ 0 j (by
    rw [List.mem_range']
    exact ⟨j - start, by omega, by omega⟩)

theorem windowMax_zero (p : List ℚ) (start stop : ℕ)
    (h : ∀ j, start ≤ j → j ≤ stop → ¬ p.getD j 0 > 0) :
    windowMax p start stop = 0 := by
  unfold windowMax
  refine foldMax_zero p _ fun j hj => ?_
  rw [List.mem_range'] at hj
  obtain ⟨i, hi, rfl⟩ := hj
  exact h _ (Nat.le_add_right _ _) (by omega)

theorem windowMax_exists_of_pos (p : List ℚ) (start stop : ℕ)
    (h : 0 < windowMax p start stop) :
    ∃ j, start ≤ j ∧ j ≤ stop ∧ windowMax p start stop = p.getD j 0 := by
  unfold windowMax at h ⊢
  rcases foldMax_eq_init_or_mem p (List.range' start (stop + 1 - start)) 0 with heq | ⟨j, hj, hje⟩
  · rw [heq] at h
    exact absurd h (by simp)
  · rw [List.mem_range'] at hj
    obtain ⟨i, hi, rfl⟩ := hj
    exact ⟨start + 1 * i, Nat.le_add_right _ _, by omega, hje⟩

theorem dilateProfile_length (p : List ℚ) (r : ℕ) :
    (dilateProfile p r).length = p.length := by
  unfold dilateProfile
  by_cases hr : r = 0
  · rw [if_pos hr]
  · rw [if_neg hr]
    simp

theorem dilateProfile_getD (p : List ℚ) (r i : ℕ) (hi : i < p.length) (hr : r ≠ 0) :
    (dilateProfile p r).getD i 0 =
      windowMax p (i - r) (min (p.length - 1) (i + r)) := by
  unfold dilateProfile
  rw [if_neg hr]
  rw [List.getD_eq_getElem?_getD]
  rw [List.getElem?_map]
  simp [List.getElem?_range, hi]

theorem dilateProfile_getD_out (p : List ℚ) (r i : ℕ) (hi : ¬ i < p.length) :
    (dilateProfile p r).getD i 0 = 0 := by
  have hlen := dilateProfile_length p r
  rw [List.getD_eq_getElem?_getD, List.getElem?_eq_none (by omega)]
  rfl

/-! ### Gap-scan lemmas -/

theorem findGapScan_flat_none (E : ℕ → ℚ) (lo hi mg : ℕ) (hm : 1 ≤ mg)
    (ys : List ℕ) (h : ∀ y ∈ ys, E y < 5) (g : Option ℕ) :
    findGapScan E lo hi mg hm ys g = none := by
  induction ys generalizing g with
  | nil => rfl
  | cons y ys ih =>
    have hy : E y < 5 := h y (List.mem_cons_self y ys)
    have hrest : ∀ z ∈ ys, E z < 5 := fun z hz => h z (List.mem_cons_of_mem y hz)
    cases g with
    | none =>
      rw [findGapScan, if_pos hy]
      exact ih hrest _
    | some s =>
      rw [findGapScan, if_pos hy]
      exact ih hrest _

theorem findGapScan_energetic_none (E : ℕ → ℚ) (lo hi mg : ℕ) (hm : 1 ≤ mg)
    (ys : List ℕ) (h : ∀ y ∈ ys, ¬ E y < 5) :
    findGapScan E lo hi mg hm ys none = none := by
  induction ys with
  | nil => rfl
  | cons y ys ih =>
    have hy : ¬ E y < 5 := h y (List.mem_cons_self y ys)
    rw [findGapScan, if_neg hy]
    exact ih fun z hz => h z (List.mem_cons_of_mem y hz)

theorem findGapScan_spec (E : ℕ → ℚ) (lo hi mg : ℕ) (hm : 1 ≤ mg) :
    ∀ (n y : ℕ) (g : Option ℕ) (s e : ℕ)
      (hp : lo + 30 ≤ s ∧ s < e ∧ e + 30 ≤ hi),
      findGapScan E lo hi mg hm (List.range' y n) g = some ⟨(s, e), hp⟩ →
      (∀ s₀, g = some s₀ → s₀ ≤ y ∧ (∀ t, s₀ ≤ t → t < y → E t < 5) ∧
        (s₀ = lo ∨ ¬ E (s₀ - 1) < 5)) →
      (g = none → y = lo ∨ ¬ E (y - 1) < 5) →
      mg ≤ e - s ∧ 30 ≤ s - lo ∧ 30 ≤ hi - e ∧
        (∀ t, s ≤ t → t < e → E t < 5) ∧ ¬ E e < 5 ∧ (s = lo ∨ ¬ E (s - 1) < 5) := by
  intro n
  induction n with
  | zero =>
    intro y g s e hp h _ _
    simp [findGapScan] at h
  | succ n ih =>
    intro y g s e hp h hinv hnone
    rw [show List.range' y (n + 1) = y :: List.range' (y + 1) n from rfl] at h
    by_cases hy : E y < 5
    · cases g with
      | none =>
        rw [findGapScan, if_pos hy] at h
        refine ih (y + 1) (some y) s e hp h ?_ (by simp)
        intro s₀ hs₀
        have hys : y = s₀ := by injection hs₀
        subst hys
        refine ⟨Nat.le_succ y, ?_, hnone rfl⟩
        intro t ht1 ht2
        have ht : t = y := by omega
        subst ht
        exact hy
      | some s₀ =>
        rw [findGapScan, if_pos hy] at h
        refine ih (y + 1) (some s₀) s e hp h ?_ (by simp)
        intro s₁ hs₁
        obtain rfl : s₀ = s₁ := by injection hs₁
        obtain ⟨ha, hb, hc⟩ := hinv s₀ rfl
        refine ⟨Nat.le_succ_of_le ha, fun t ht1 ht2 => ?_, hc⟩
        rcases Nat.lt_or_ge t y with hlt | hge
        · exact hb t ht1 hlt
        · have : t = y := by omega
          subst this; exact hy
    · cases g with
      | none =>
        rw [findGapScan, if_neg hy] at h
        refine ih (y + 1) none s e hp h (by simp) ?_
        intro _
        right
        simpa using hy
      | some s₀ =>
        rw [findGapScan, if_neg hy] at h
        by_cases hacc : mg ≤ y - s₀ ∧ 30 ≤ s₀ - lo ∧ 30 ≤ hi - y
        · rw [dif_pos hacc] at h
          rw [Option.some_inj] at h
          have h' : (s₀, y) = (s, e) := congrArg Subtype.val h
          rw [Prod.mk.injEq] at h'
          obtain ⟨hs, he⟩ := h'
          obtain ⟨ha, hb, hc⟩ := hinv s₀ rfl
          rw [← hs, ← he]
          exact ⟨hacc.1, hacc.2.1, hacc.2.2, hb, hy, hc⟩
        · rw [dif_neg hacc] at h
          refine ih (y + 1) none s e hp h (by simp) ?_
          intro _
          right
          simpa using hy

theorem findGap_spec (E : ℕ → ℚ) (lo hi mg : ℕ) (hm : 1 ≤ mg)
    (s e : ℕ) (hp : lo + 30 ≤ s ∧ s < e ∧ e + 30 ≤ hi)
    (h : findGap E lo hi mg hm = some ⟨(s, e), hp⟩) :
    mg ≤ e - s ∧ 30 ≤ s - lo ∧ 30 ≤ hi - e ∧
      (∀ t, s ≤ t → t < e → E t < 5) ∧ ¬ E e < 5 ∧ (s = lo ∨ ¬ E (s - 1) < 5) := by
  exact findGapScan_spec E lo hi mg hm (hi + 1 - lo) lo none s e hp h
    (by simp) (fun _ => Or.inl rfl)

/-- Flat run of length at least `minGap` whose two resulting sub-rects
are both at least 30px thick (a qualifying gutter in the sense of the
spec). -/
def qualifyingRun (E : ℕ → ℚ) (lo hi minGap s e : ℕ) : Prop :=
  lo + 30 ≤ s ∧ e + 30 ≤ hi ∧ minGap ≤ e - s ∧ ∀ t, s ≤ t → t < e → E t < 5

theorem findGap_none_of_no_qualifyingRun (E : ℕ → ℚ) (lo hi mg : ℕ) (hm : 1 ≤ mg)
    (h : ∀ s e, ¬ qualifyingRun E lo hi mg s e) :
    findGap E lo hi mg hm = none := by
  cases hg : findGap E lo hi mg hm with
  | none => rfl
  | some g =>
    obtain ⟨⟨s, e⟩, hp⟩ := g
    obtain ⟨h1, h2, h3, h4, _, _⟩ := findGap_spec E lo hi mg hm s e hp hg
    exact absurd ⟨by omega, by omega, h1, h4⟩ (h s e)

theorem no_qualifyingRun_of_energetic (E : ℕ → ℚ) (lo hi mg : ℕ) (hmg : 1 ≤ mg)
    (h : ∀ t, lo ≤ t → t ≤ hi → ¬ E t < 5) :
    ∀ s e, ¬ qualifyingRun E lo hi mg s e := by
  rintro s e ⟨h1, h2, h3, h4⟩
  exact (h s (by omega) (by omega)) (h4 s le_rfl (by omega))

theorem getColEnergy_eq_filtered (data : ℕ → ℕ) (width height x minY maxY : ℕ) :
    getColEnergy data width height x minY maxY =
      (if ((List.range' minY (maxY - minY)).filter
          (fun y => ¬ (data ((y * width + x) * 4 + 3) < 10 ∧
            data (((y + 1) * width + x) * 4 + 3) < 10))).length = 0 then 0
      else
        ((((List.range' minY (maxY - minY)).filter
          (fun y => ¬ (data ((y * width + x) * 4 + 3) < 10 ∧
            data (((y + 1) * width + x) * 4 + 3) < 10))).map
          (fun y => pixelDist data ((y * width + x) * 4) (((y + 1) * width + x) * 4))).sum : ℚ) /
        (((List.range' minY (maxY - minY)).filter
          (fun y => ¬ (data ((y * width + x) * 4 + 3) < 10 ∧
            data (((y + 1) * width + x) * 4 + 3) < 10))).length : ℚ)) := by
  unfold getColEnergy energyStep
  rw [foldl_energyStep_eq
    (fun y => data ((y * width + x) * 4 + 3) < 10 ∧ data (((y + 1) * width + x) * 4 + 3) < 10)
    (fun y => pixelDist data ((y * width + x) * 4) (((y + 1) * width + x) * 4))]
  simp only [Nat.zero_add]
  by_cases h : ((List.range' minY (maxY - minY)).filter
      (fun y => ¬ (data ((y * width + x) * 4 + 3) < 10 ∧
        data (((y + 1) * width + x) * 4 + 3) < 10))).length = 0
  · rw [if_neg (by omega), if_pos h]
  · rw [if_pos (Nat.pos_of_ne_zero h), if_neg h]

theorem getRowEnergy_const (data : ℕ → ℕ) (width y minX maxX : ℕ) (d : ℕ)
    (hlt : minX < maxX)
    (hstep : ∀ x, minX ≤ x → x < maxX →
      ¬ (data ((y * width + x) * 4 + 3) < 10 ∧ data ((y * width + (x + 1)) * 4 + 3) < 10) ∧
      pixelDist data ((y * width + x) * 4) ((y * width + (x + 1)) * 4) = d) :
    getRowEnergy data width y minX maxX = (d : ℚ) := by
  rw [getRowEnergy_eq_filtered]
  have hmem : ∀ z ∈ List.range' minX (maxX - minX), minX ≤ z ∧ z < maxX := by
    intro z hz
    rw [List.mem_range'] at hz
    obtain ⟨i, hi, rfl⟩ := hz
    omega
  have hfilter : (List.range' minX (maxX - minX)).filter
      (fun x => ¬ (data ((y * width + x) * 4 + 3) < 10 ∧
        data ((y * width + (x + 1)) * 4 + 3) < 10)) = List.range' minX (maxX - minX) := by
    rw [List.filter_eq_self]
    intro z hz
    obtain ⟨hz1, hz2⟩ := hmem z hz
    exact decide_eq_true (hstep z hz1 hz2).1
  rw [hfilter]
  have hlen : (List.range' minX (maxX - minX)).length = maxX - minX := List.length_range' ..
  have hmap : (List.range' minX (maxX - minX)).map
      (fun x => pixelDist data ((y * width + x) * 4) ((y * width + (x + 1)) * 4)) =
      (List.range' minX (maxX - minX)).map (fun _ => d) := by
    refine List.map_congr_left ?_
    intro z hz
    obtain ⟨hz1, hz2⟩ := hmem z hz
    exact (hstep z hz1 hz2).2
  rw [hmap, if_neg (by omega)]
  rw [List.map_const']
  rw [List.sum_replicate, hlen]
  rw [smul_eq_mul]
  push_cast
  rw [mul_comm, mul_div_assoc, div_self (by
    have : (0 : ℚ) < ((maxX - minX : ℕ) : ℚ) := by
      exact_mod_cast Nat.sub_pos_of_lt hlt
    exact ne_of_gt this), mul_one]

theorem getColEnergy_const (data : ℕ → ℕ) (width height x minY maxY : ℕ) (d : ℕ)
    (hlt : minY < maxY)
    (hstep : ∀ y, minY ≤ y → y < maxY →
      ¬ (data ((y * width + x) * 4 + 3) < 10 ∧ data (((y + 1) * width + x) * 4 + 3) < 10) ∧
      pixelDist data ((y * width + x) * 4) (((y + 1) * width + x) * 4) = d) :
    getColEnergy data width height x minY maxY = (d : ℚ) := by
  rw [getColEnergy_eq_filtered]
  have hmem : ∀ z ∈ List.range' minY (maxY - minY), minY ≤ z ∧ z < maxY := by
    intro z hz
    rw [List.mem_range'] at hz
    obtain ⟨i, hi, rfl⟩ := hz
    omega
  have hfilter : (List.range' minY (maxY - minY)).filter
      (fun y => ¬ (data ((y * width + x) * 4 + 3) < 10 ∧
        data (((y + 1) * width + x) * 4 + 3) < 10)) = List.range' minY (maxY - minY) := by
    rw [List.filter_eq_self]
    intro z hz
    obtain ⟨hz1, hz2⟩ := hmem z hz
    exact decide_eq_true (hstep z hz1 hz2).1
  rw [hfilter]
  have hlen : (List.range' minY (maxY - minY)).length = maxY - minY := List.length_range' ..
  have hmap : (List.range' minY (maxY - minY)).map
      (fun y => pixelDist data ((y * width + x) * 4) (((y + 1) * width + x) * 4)) =
      (List.range' minY (maxY - minY)).map (fun _ => d) := by
    refine List.map_congr_left ?_
    intro z hz
    obtain ⟨hz1, hz2⟩ := hmem z hz
    exact (hstep z hz1 hz2).2
  rw [hmap, if_neg (by omega)]
  rw [List.map_const']
  rw [List.sum_replicate, hlen]
  rw [smul_eq_mul]
  push_cast
  rw [mul_comm, mul_div_assoc, div_self (by
    have : (0 : ℚ) < ((maxY - minY : ℕ) : ℚ) := by
      exact_mod_cast Nat.sub_pos_of_lt hlt
    exact ne_of_gt this), mul_one]

theorem getColEnergy_zero (data : ℕ → ℕ) (width height x minY maxY : ℕ)
    (hzero : ∀ y, minY ≤ y → y < maxY →
      pixelDist data ((y * width + x) * 4) (((y + 1) * width + x) * 4) = 0) :
    getColEnergy data width height x minY maxY = 0 := by
  rw [getColEnergy_eq_filtered]
  by_cases h : ((List.range' minY (maxY - minY)).filter
      (fun y => ¬ (data ((y * width + x) * 4 + 3) < 10 ∧
        data (((y + 1) * width + x) * 4 + 3) < 10))).length = 0
  · rw [if_pos h]
  · rw [if_neg h]
    have hmap : ((List.range' minY (maxY - minY)).filter
        (fun y => ¬ (data ((y * width + x) * 4 + 3) < 10 ∧
          data (((y + 1) * width + x) * 4 + 3) < 10))).map
        (fun y => pixelDist data ((y * width + x) * 4) (((y + 1) * width + x) * 4)) =
        ((List.range' minY (maxY - minY)).filter
        (fun y => ¬ (data ((y * width + x) * 4 + 3) < 10 ∧
          data (((y + 1) * width + x) * 4 + 3) < 10))).map (fun _ => 0) := by
      refine List.map_congr_left ?_
      intro z hz
      have hz2 := List.mem_range'.1 (List.mem_of_mem_filter hz)
      obtain ⟨i, hi, rfl⟩ := hz2
      exact hzero _ (by omega) (by omega)
    rw [hmap, List.map_const', List.sum_replicate, smul_eq_mul, mul_zero]
    norm_num

/-- C9: `splitBox` returns exactly one Region equal to the input rect
(in normalized coordinates) whenever the rect is under 80px wide or
tall, and likewise whenever no qualifying gutter exists on either axis
(no flat run of length at least `minGap` in the dilated profile whose
two resulting sub-rects are both at least 30px thick). -/
theorem splitBox_single_region :
    (∀ (minX minY maxX maxY : ℕ) (data : ℕ → ℕ) (width height bgR bgG bgB : ℕ)
      (threshold : ℚ),
      maxX - minX < 80 ∨ maxY - minY < 80 →
      splitBox minX minY maxX maxY data width height bgR bgG bgB threshold
        = [regionOfRect minX minY maxX maxY width height]) ∧
    (∀ (minX minY maxX maxY : ℕ) (data : ℕ → ℕ) (width height bgR bgG bgB : ℕ)
      (threshold : ℚ),
      (∀ s e, ¬ qualifyingRun (rowEnergyAt data width minX maxX minY maxY threshold)
        minY maxY (minGapOf threshold) s e) →
      (∀ s e, ¬ qualifyingRun (colEnergyAt data width height minX maxX minY maxY threshold)
        minX maxX (minGapOf threshold) s e) →
      splitBox minX minY maxX maxY data width height bgR bgG bgB threshold
        = [regionOfRect minX minY maxX maxY width height]) := by
  constructor
  · intro minX minY maxX maxY data width height bgR bgG bgB threshold h
    rw [splitBox, if_pos h]
  · intro minX minY maxX maxY data width height bgR bgG bgB threshold h1 h2
    have hrow : findRowGap data width minX maxX minY maxY threshold = none := by
      unfold findRowGap
      exact findGap_none_of_no_qualifyingRun _ _ _ _ _ h1
    have hcol : findColGap data width height minX maxX minY maxY threshold = none := by
      unfold findColGap
      exact findGap_none_of_no_qualifyingRun _ _ _ _ _ h2
    rw [splitBox]
    by_cases hsmall : maxX - minX < 80 ∨ maxY - minY < 80
    · rw [if_pos hsmall]
    · rw [if_neg hsmall, hrow, hcol]

/-- Checkerboard test buffer: 81 pixels wide, alternating opaque black
and white pixels (every pixel differs from each of its neighbors). -/
def cbData : ℕ → ℕ := fun i =>
  if i % 4 = 3 then 255
  else if ((i / 4) % 81 + (i / 4) / 81) % 2 = 0 then 0 else 255

theorem cbData_at (p c : ℕ) (hc : c < 4) :
    cbData (p * 4 + c) =
      if c = 3 then 255 else if (p % 81 + p / 81) % 2 = 0 then 0 else 255 := by
  unfold cbData
  have h1 : (p * 4 + c) % 4 = c := by omega
  have h2 : (p * 4 + c) / 4 = p := by omega
  rw [h1, h2]

theorem cb_chan (p c : ℕ) (hc : c < 3) :
    cbData (p * 4 + c) = if (p % 81 + p / 81) % 2 = 0 then 0 else 255 := by
  rw [cbData_at p c (by omega), if_neg (by omega)]

theorem cb_alpha (p : ℕ) : cbData (p * 4 + 3) = 255 := by
  rw [cbData_at p 3 (by omega), if_pos rfl]

theorem cb_pixelDist (p q : ℕ)
    (h : (p % 81 + p / 81) % 2 ≠ (q % 81 + q / 81) % 2) :
    pixelDist cbData (p * 4) (q * 4) = 765 := by
  have hp0 : cbData (p * 4) = if (p % 81 + p / 81) % 2 = 0 then 0 else 255 := by
    have := cb_chan p 0 (by omega)
    simpa using this
  have hq0 : cbData (q * 4) = if (q % 81 + q / 81) % 2 = 0 then 0 else 255 := by
    have := cb_chan q 0 (by omega)
    simpa using this
  unfold pixelDist
  rw [hp0, hq0, cb_chan p 1 (by omega), cb_chan q 1 (by omega),
    cb_chan p 2 (by omega), cb_chan q 2 (by omega)]
  by_cases hp : (p % 81 + p / 81) % 2 = 0
  · have hq : ¬ (q % 81 + q / 81) % 2 = 0 := by omega
    rw [if_pos hp, if_neg hq]
    decide
  · have hq : (q % 81 + q / 81) % 2 = 0 := by omega
    rw [if_neg hp, if_pos hq]
    decide

theorem cb_row_const (y : ℕ) :
    getRowEnergy cbData 81 y 0 80 = (765 : ℚ) := by
  refine getRowEnergy_const cbData 81 y 0 80 765 (by omega) ?_
  intro x hx0 hx80
  constructor
  · rw [cb_alpha]
    omega
  · refine cb_pixelDist (y * 81 + x) (y * 81 + (x + 1)) ?_
    have e1 : (y * 81 + x) % 81 = x := by omega
    have e2 : (y * 81 + x) / 81 = y := by omega
    have e3 : (y * 81 + (x + 1)) % 81 = x + 1 := by omega
    have e4 : (y * 81 + (x + 1)) / 81 = y := by omega
    rw [e1, e2, e3, e4]
    omega

theorem cb_col_const (x : ℕ) (hx : x ≤ 80) :
    getColEnergy cbData 81 81 x 0 80 = (765 : ℚ) := by
  refine getColEnergy_const cbData 81 81 x 0 80 765 (by omega) ?_
  intro y hy0 hy80
  constructor
  · rw [cb_alpha]
    omega
  · refine cb_pixelDist (y * 81 + x) ((y + 1) * 81 + x) ?_
    have e1 : (y * 81 + x) % 81 = x := by omega
    have e2 : (y * 81 + x) / 81 = y := by omega
    have e3 : ((y + 1) * 81 + x) % 81 = x := by omega
    have e4 : ((y + 1) * 81 + x) / 81 = y + 1 := by omega
    rw [e1, e2, e3, e4]
    omega

theorem dilationRadiusOf_100 : dilationRadiusOf 100 = 0 := by
  unfold dilationRadiusOf
  norm_num

theorem cb_rowEnergyAt (t : ℕ) (h0 : 0 ≤ t) (h80 : t ≤ 80) :
    ¬ rowEnergyAt cbData 81 0 80 0 80 100 t < 5 := by
  unfold rowEnergyAt
  rw [dilationRadiusOf_100]
  unfold dilateProfile
  rw [if_pos rfl]
  unfold rowRawProfile
  rw [List.getD_eq_getElem?_getD, List.getElem?_map,
    List.getElem?_range (show t - 0 < 80 - 0 + 1 by omega)]
  simp only [Option.map_some', Option.getD_some]
  rw [Nat.zero_add, Nat.sub_zero, cb_row_const]
  norm_num

theorem cb_colEnergyAt (t : ℕ) (h0 : 0 ≤ t) (h80 : t ≤ 80) :
    ¬ colEnergyAt cbData 81 81 0 80 0 80 100 t < 5 := by
  unfold colEnergyAt
  rw [dilationRadiusOf_100]
  unfold dilateProfile
  rw [if_pos rfl]
  unfold colRawProfile
  rw [List.getD_eq_getElem?_getD, List.getElem?_map,
    List.getElem?_range (show t - 0 < 80 - 0 + 1 by omega)]
  simp only [Option.map_some', Option.getD_some]
  rw [Nat.zero_add, Nat.sub_zero, cb_col_const t (by omega)]
  norm_num

/-- C9 witness: a rect under 80px is emitted unchanged, and on an
81x81 opaque checkerboard (uniform high-frequency texture with no flat
run at all) the full rect is emitted unchanged as exactly one Region. -/
theorem splitBox_single_region_witness :
    splitBox 5 5 20 20 cbData 81 81 0 0 0 100 = [regionOfRect 5 5 20 20 81 81] ∧
    splitBox 0 0 80 80 cbData 81 81 0 0 0 100 = [regionOfRect 0 0 80 80 81 81] := by
  constructor
  · exact splitBox_single_region.1 5 5 20 20 cbData 81 81 0 0 0 100 (Or.inl (by omega))
  · refine splitBox_single_region.2 0 0 80 80 cbData 81 81 0 0 0 100 ?_ ?_
    · exact no_qualifyingRun_of_energetic _ _ _ _ (minGapOf_pos 100)
        (fun t ht1 ht2 => cb_rowEnergyAt t ht1 ht2)
    · exact no_qualifyingRun_of_energetic _ _ _ _ (minGapOf_pos 100)
        (fun t ht1 ht2 => cb_colEnergyAt t ht1 ht2)

theorem dilate_getD_ge_self (p : List ℚ) (r i : ℕ) (hi : i < p.length) :
    p.getD i 0 ≤ (dilateProfile p r).getD i 0 := by
  by_cases hr : r = 0
  · unfold dilateProfile
    rw [if_pos hr]
  · rw [dilateProfile_getD p r i hi hr]
    exact windowMax_ge p (i - r) (min (p.length - 1) (i + r)) i
      (Nat.sub_le i r) (by omega)

/-! ### The 200x100 striped scenario of the spec (threshold 50)

Columns 0-89 and 150-199 carry a high-frequency alternating black/white
stripe pattern (every column differs from its neighbor), columns 90-149
are solid background gray, every pixel is opaque, and all rows are
identical (each column is vertically uniform). -/

/-- Color of a column in the striped test image. -/
def stripeColColor (x : ℕ) : ℕ :=
  if x < 90 then (if x % 2 = 0 then 0 else 255)
  else if x < 150 then 128
  else (if x % 2 = 0 then 0 else 255)

/-- Striped test buffer, 200 pixels wide and vertically uniform. -/
def stripeData : ℕ → ℕ := fun i =>
  if i % 4 = 3 then 255 else stripeColColor ((i / 4) % 200)

theorem stripeData_alpha (p : ℕ) : stripeData (p * 4 + 3) = 255 := by
  unfold stripeData
  rw [if_pos (by omega)]

theorem stripeData_chan (p c : ℕ) (hc : c < 3) :
    stripeData (p * 4 + c) = stripeColColor (p % 200) := by
  unfold stripeData
  rw [if_neg (by omega)]
  congr 1
  omega

theorem stripeData_shift (y x c : ℕ) (hx : x < 200) (hc : c < 4) :
    stripeData ((y * 200 + x) * 4 + c) = stripeData ((0 * 200 + x) * 4 + c) := by
  unfold stripeData
  have h1 : ((y * 200 + x) * 4 + c) % 4 = c := by omega
  have h2 : ((0 * 200 + x) * 4 + c) % 4 = c := by omega
  have h3 : (((y * 200 + x) * 4 + c) / 4) % 200 = x := by omega
  have h4 : (((0 * 200 + x) * 4 + c) / 4) % 200 = x := by omega
  rw [h1, h2, h3, h4]

theorem stripeData_shift0 (y x : ℕ) (hx : x < 200) :
    stripeData ((y * 200 + x) * 4) = stripeData ((0 * 200 + x) * 4) :=
  stripeData_shift y x 0 hx (by omega)

theorem stripe_row_eq (y : ℕ) :
    getRowEnergy stripeData 200 y 0 199 = getRowEnergy stripeData 200 0 0 199 := by
  unfold getRowEnergy
  have hfold : (List.range' 0 (199 - 0)).foldl
      (fun acc x => energyStep stripeData ((y * 200 + x) * 4) ((y * 200 + (x + 1)) * 4) acc)
      (0, 0) =
      (List.range' 0 (199 - 0)).foldl
      (fun acc x => energyStep stripeData ((0 * 200 + x) * 4) ((0 * 200 + (x + 1)) * 4) acc)
      (0, 0) := by
    refine List.foldl_ext _ _ _ ?_
    intro acc x hx
    rw [List.mem_range'] at hx
    obtain ⟨i, hi, rfl⟩ := hx
    unfold energyStep pixelDist
    rw [stripeData_shift0 y (0 + 1 * i) (by omega),
      stripeData_shift y (0 + 1 * i) 1 (by omega) (by omega),
      stripeData_shift y (0 + 1 * i) 2 (by omega) (by omega),
      stripeData_shift y (0 + 1 * i) 3 (by omega) (by omega),
      stripeData_shift0 y (0 + 1 * i + 1) (by omega),
      stripeData_shift y (0 + 1 * i + 1) 1 (by omega) (by omega),
      stripeData_shift y (0 + 1 * i + 1) 2 (by omega) (by omega),
      stripeData_shift y (0 + 1 * i + 1) 3 (by omega) (by omega)]
  rw [hfold]

theorem stripe_col_zero (x : ℕ) (hx : x < 200) :
    getColEnergy stripeData 200 100 x 0 99 = 0 := by
  refine getColEnergy_zero stripeData 200 100 x 0 99 ?_
  intro y hy0 hy99
  unfold pixelDist
  rw [stripeData_shift0 y x hx, stripeData_shift0 (y + 1) x hx,
    stripeData_shift y x 1 hx (by omega), stripeData_shift (y + 1) x 1 hx (by omega),
    stripeData_shift y x 2 hx (by omega), stripeData_shift (y + 1) x 2 hx (by omega)]
  simp [chanDiff]

theorem dilationRadiusOf_50 : dilationRadiusOf 50 = 20 := by
  with_unfolding_all decide

theorem minGapOf_50 : minGapOf 50 = 8 := by
  with_unfolding_all decide

set_option maxRecDepth 20000 in
theorem stripe_row_base : (5 : ℚ) ≤ getRowEnergy stripeData 200 0 0 199 := by
  with_unfolding_all decide

theorem stripe_rowEnergyAt (t : ℕ) (h0 : 0 ≤ t) (h99 : t ≤ 99) :
    ¬ rowEnergyAt stripeData 200 0 199 0 99 50 t < 5 := by
  unfold rowEnergyAt
  have hlen : (rowRawProfile stripeData 200 0 199 0 99).length = 100 := by
    unfold rowRawProfile
    simp
  have hge := dilate_getD_ge_self (rowRawProfile stripeData 200 0 199 0 99)
    (dilationRadiusOf 50) (t - 0) (by omega)
  have hentry : (rowRawProfile stripeData 200 0 199 0 99).getD (t - 0) 0
      = getRowEnergy stripeData 200 0 0 199 := by
    unfold rowRawProfile
    rw [List.getD_eq_getElem?_getD, List.getElem?_map,
      List.getElem?_range (show t - 0 < 99 - 0 + 1 by omega)]
    simp only [Option.map_some', Option.getD_some]
    rw [stripe_row_eq]
  intro hlt
  have h1 : (5 : ℚ) ≤ (rowRawProfile stripeData 200 0 199 0 99).getD (t - 0) 0 := by
    rw [hentry]
    exact stripe_row_base
  exact absurd hlt (not_lt.2 (le_trans h1 hge))

theorem stripe_colProfile_getD (j : ℕ) :
    (colRawProfile stripeData 200 100 0 199 0 99).getD j 0 = 0 := by
  unfold colRawProfile
  by_cases hj : j < 200
  · rw [List.getD_eq_getElem?_getD, List.getElem?_map,
      List.getElem?_range (show j < 199 - 0 + 1 by omega)]
    simp only [Option.map_some', Option.getD_some]
    exact stripe_col_zero (0 + j) (by omega)
  · rw [List.getD_eq_getElem?_getD, List.getElem?_eq_none (by simp; omega)]
    rfl

theorem stripe_colEnergyAt (x : ℕ) :
    colEnergyAt stripeData 200 100 0 199 0 99 50 x < 5 := by
  unfold colEnergyAt
  have hlen : (colRawProfile stripeData 200 100 0 199 0 99).length = 200 := by
    unfold colRawProfile
    simp
  by_cases hx : x - 0 < (colRawProfile stripeData 200 100 0 199 0 99).length
  · rw [dilateProfile_getD _ _ _ hx (by rw [dilationRadiusOf_50]; omega)]
    rw [windowMax_zero]
    · norm_num
    · intro j _ _
      rw [stripe_colProfile_getD j]
      norm_num
  · rw [dilateProfile_getD_out _ _ _ hx]
    norm_num

/-- Shared evaluation of the splitter on the striped scenario: the
vertical gutter is never detected because the column-energy profile
measures vertical variation, which is zero on an image whose rows are
identical, so the column scan sees one flat run that never closes. -/
theorem stripe_splitBox_eq :
    splitBox 0 0 199 99 stripeData 200 100 128 128 128 50
      = [regionOfRect 0 0 199 99 200 100] := by
  have hrow : findRowGap stripeData 200 0 199 0 99 50 = none := by
    unfold findRowGap findGap
    refine findGapScan_energetic_none _ _ _ _ _ _ ?_
    intro y hy
    rw [List.mem_range'] at hy
    obtain ⟨i, hi, rfl⟩ := hy
    exact stripe_rowEnergyAt (0 + 1 * i) (by omega) (by omega)
  have hcol : findColGap stripeData 200 100 0 199 0 99 50 = none := by
    unfold findColGap findGap
    exact findGapScan_flat_none _ _ _ _ _ _
      (fun y _ => stripe_colEnergyAt y) none
  rw [splitBox, if_neg (by omega), hrow, hcol]

/-- C3 counterexample: on the 200x100 rect of the spec's scenario
(opaque alternating-color stripes in columns 0-89 and 150-199, solid
background in columns 90-149, all rows identical, threshold 50),
`splitBox` does not return 2 Regions. -/
theorem splitBox_stripes_not_two :
    ¬ (splitBox 0 0 199 99 stripeData 200 100 128 128 128 50).length = 2 := by
  rw [stripe_splitBox_eq]
  simp

/-- C3 amended: with threshold 50 the derived parameters are
`dilationRadius = 20` and `minGapSize = 8` as the spec states, but on
the striped scenario `splitBox` returns exactly one Region equal to the
whole input rect: the column-energy profile measures vertical
variation, which is identically zero when all rows are identical, so
the whole column range is one flat run that never closes and no
vertical cut is made. -/
theorem splitBox_stripes_single :
    dilationRadiusOf 50 = 20 ∧ minGapOf 50 = 8 ∧
    splitBox 0 0 199 99 stripeData 200 100 128 128 128 50
      = [regionOfRect 0 0 199 99 200 100] :=
  ⟨dilationRadiusOf_50, minGapOf_50, stripe_splitBox_eq⟩

theorem getRowEnergy_zero_of_transparent (data : ℕ → ℕ) (width y minX maxX : ℕ)
    (hall : ∀ x, minX ≤ x → x < maxX →
      data ((y * width + x) * 4 + 3) < 10 ∧ data ((y * width + (x + 1)) * 4 + 3) < 10) :
    getRowEnergy data width y minX maxX = 0 := by
  rw [getRowEnergy_eq_filtered]
  have hfil : (List.range' minX (maxX - minX)).filter
      (fun x => ¬ (data ((y * width + x) * 4 + 3) < 10 ∧
        data ((y * width + (x + 1)) * 4 + 3) < 10)) = [] := by
    rw [List.filter_eq_nil]
    intro z hz
    rw [List.mem_range'] at hz
    obtain ⟨i, hi, rfl⟩ := hz
    simp only [decide_eq_true_eq, Decidable.not_not]
    exact hall _ (by omega) (by omega)
  rw [hfil]
  simp

theorem getColEnergy_zero_of_transparent (data : ℕ → ℕ) (width height x minY maxY : ℕ)
    (hall : ∀ y, minY ≤ y → y < maxY →
      data ((y * width + x) * 4 + 3) < 10 ∧ data (((y + 1) * width + x) * 4 + 3) < 10) :
    getColEnergy data width height x minY maxY = 0 := by
  rw [getColEnergy_eq_filtered]
  have hfil : (List.range' minY (maxY - minY)).filter
      (fun y => ¬ (data ((y * width + x) * 4 + 3) < 10 ∧
        data (((y + 1) * width + x) * 4 + 3) < 10)) = [] := by
    rw [List.filter_eq_nil]
    intro z hz
    rw [List.mem_range'] at hz
    obtain ⟨i, hi, rfl⟩ := hz
    simp only [decide_eq_true_eq, Decidable.not_not]
    exact hall _ (by omega) (by omega)
  rw [hfil]
  simp

theorem rowRawProfile_getD (data : ℕ → ℕ) (width minX maxX minY maxY j : ℕ)
    (hj : j < maxY - minY + 1) :
    (rowRawProfile data width minX maxX minY maxY).getD j 0
      = getRowEnergy data width (minY + j) minX maxX := by
  unfold rowRawProfile
  rw [List.getD_eq_getElem?_getD, List.getElem?_map, List.getElem?_range hj]
  simp only [Option.map_some', Option.getD_some]

theorem colRawProfile_getD (data : ℕ → ℕ) (width height minX maxX minY maxY j : ℕ)
    (hj : j < maxX - minX + 1) :
    (colRawProfile data width height minX maxX minY maxY).getD j 0
      = getColEnergy data width height (minX + j) minY maxY := by
  unfold colRawProfile
  rw [List.getD_eq_getElem?_getD, List.getElem?_map, List.getElem?_range hj]
  simp only [Option.map_some', Option.getD_some]

/-- If the raw profile is zero on the prefix up to absolute position
`m`, an accepted flat run of the dilated profile cannot start at or
before `m`: the energetic position `s - 1` that opens the run would
have to draw its dilated energy from a raw position that also reaches
position `s`, contradicting the run's flatness at `s`. -/
theorem dilated_run_start_after_zero_prefix (p : List ℚ) (radius lo m s : ℕ)
    (hzero : ∀ j, j < p.length → lo + j ≤ m → p.getD j 0 = 0)
    (hlo : lo < s) (hslen : s - lo < p.length)
    (hsm1 : ¬ (dilateProfile p radius).getD (s - 1 - lo) 0 < 5)
    (hsflat : (dilateProfile p radius).getD (s - lo) 0 < 5) :
    m < s := by
  by_contra hle
  push_neg at hle
  have hi1lt : s - 1 - lo < p.length := by omega
  by_cases hrad : radius = 0
  · unfold dilateProfile at hsm1
    rw [if_pos hrad] at hsm1
    rw [hzero (s - 1 - lo) hi1lt (by omega)] at hsm1
    norm_num at hsm1
  · rw [dilateProfile_getD p radius (s - 1 - lo) hi1lt hrad] at hsm1
    have hpos : 0 < windowMax p (s - 1 - lo - radius)
        (min (p.length - 1) (s - 1 - lo + radius)) := by
      by_contra hnp
      push_neg at hnp
      exact hsm1 (lt_of_le_of_lt hnp (by norm_num))
    obtain ⟨j, hj1, hj2, hjeq⟩ := windowMax_exists_of_pos p _ _ hpos
    have hj5 : ¬ p.getD j 0 < 5 := by
      rw [← hjeq]
      exact hsm1
    have hjlen : j < p.length := by omega
    have hjm : m - lo < j := by
      by_contra hjm2
      push_neg at hjm2
      rw [hzero j hjlen (by omega)] at hj5
      norm_num at hj5
    rw [dilateProfile_getD p radius (s - lo) hslen hrad] at hsflat
    have hge : p.getD j 0 ≤ windowMax p (s - lo - radius)
        (min (p.length - 1) (s - lo + radius)) := by
      refine windowMax_ge p _ _ j ?_ ?_
      · omega
      · omega
    exact absurd (lt_of_le_of_lt hge hsflat) hj5

/-- If the raw profile is zero on the suffix from absolute position `m`
on, an accepted flat run of the dilated profile cannot end at or after
`m`: the energetic position `e` that closes the run would have to draw
its dilated energy from a raw position that also reaches `e - 1`,
contradicting the run's flatness at `e - 1`. -/
theorem dilated_run_end_before_zero_suffix (p : List ℚ) (radius lo m s e : ℕ)
    (hzero : ∀ j, j < p.length → m ≤ lo + j → p.getD j 0 = 0)
    (hlo : lo ≤ s) (hse : s < e) (helen : e - lo < p.length)
    (hend : ¬ (dilateProfile p radius).getD (e - lo) 0 < 5)
    (hflat : (dilateProfile p radius).getD (e - 1 - lo) 0 < 5) :
    e < m := by
  by_contra hle
  push_neg at hle
  by_cases hrad : radius = 0
  · unfold dilateProfile at hend
    rw [if_pos hrad] at hend
    rw [hzero (e - lo) helen (by omega)] at hend
    norm_num at hend
  · rw [dilateProfile_getD p radius (e - lo) helen hrad] at hend
    have hpos : 0 < windowMax p (e - lo - radius)
        (min (p.length - 1) (e - lo + radius)) := by
      by_contra hnp
      push_neg at hnp
      exact hend (lt_of_le_of_lt hnp (by norm_num))
    obtain ⟨j, hj1, hj2, hjeq⟩ := windowMax_exists_of_pos p _ _ hpos
    have hj5 : ¬ p.getD j 0 < 5 := by
      rw [← hjeq]
      exact hend
    have hjlen : j < p.length := by omega
    have hjm : j < m - lo := by
      by_contra hjm2
      push_neg at hjm2
      rw [hzero j hjlen (by omega)] at hj5
      norm_num at hj5
    have hi1lt : e - 1 - lo < p.length := by omega
    rw [dilateProfile_getD p radius (e - 1 - lo) hi1lt hrad] at hflat
    have hge : p.getD j 0 ≤ windowMax p (e - 1 - lo - radius)
        (min (p.length - 1) (e - 1 - lo + radius)) := by
      refine windowMax_ge p _ _ j ?_ ?_
      · omega
      · omega
    exact absurd (lt_of_le_of_lt hge hflat) hj5

/-- C4: in both the row- and the column-energy computation, a pixel
pair in which both samples have alpha below 10 contributes neither to
the distance sum nor to the pair count (each energy is the mean over
exactly the surviving pairs), and consequently a margin of fully
transparent pixels never registers as the gutter on either axis: an
accepted row gap starts strictly below a transparent top margin and
ends strictly above a transparent bottom margin, and an accepted
column gap starts strictly right of a transparent left margin and ends
strictly left of a transparent right margin. -/
theorem energy_transparent_margin :
    (∀ (data : ℕ → ℕ) (width y minX maxX : ℕ),
      getRowEnergy data width y minX maxX =
        (if ((List.range' minX (maxX - minX)).filter
            (fun x => ¬ (data ((y * width + x) * 4 + 3) < 10 ∧
              data ((y * width + (x + 1)) * 4 + 3) < 10))).length = 0 then 0
        else
          ((((List.range' minX (maxX - minX)).filter
            (fun x => ¬ (data ((y * width + x) * 4 + 3) < 10 ∧
              data ((y * width + (x + 1)) * 4 + 3) < 10))).map
            (fun x => pixelDist data ((y * width + x) * 4) ((y * width + (x + 1)) * 4))).sum : ℚ) /
          (((List.range' minX (maxX - minX)).filter
            (fun x => ¬ (data ((y * width + x) * 4 + 3) < 10 ∧
              data ((y * width + (x + 1)) * 4 + 3) < 10))).length : ℚ))) ∧
    (∀ (data : ℕ → ℕ) (width height x minY maxY : ℕ),
      getColEnergy data width height x minY maxY =
        (if ((List.range' minY (maxY - minY)).filter
            (fun y => ¬ (data ((y * width + x) * 4 + 3) < 10 ∧
              data (((y + 1) * width + x) * 4 + 3) < 10))).length = 0 then 0
        else
          ((((List.range' minY (maxY - minY)).filter
            (fun y => ¬ (data ((y * width + x) * 4 + 3) < 10 ∧
              data (((y + 1) * width + x) * 4 + 3) < 10))).map
            (fun y => pixelDist data ((y * width + x) * 4) (((y + 1) * width + x) * 4))).sum : ℚ) /
          (((List.range' minY (maxY - minY)).filter
            (fun y => ¬ (data ((y * width + x) * 4 + 3) < 10 ∧
              data (((y + 1) * width + x) * 4 + 3) < 10))).length : ℚ))) ∧
    (∀ (data : ℕ → ℕ) (width minX maxX minY maxY m : ℕ) (threshold : ℚ),
      minY ≤ m →
      (∀ y x, minY ≤ y → y ≤ m → minX ≤ x → x ≤ maxX →
        data ((y * width + x) * 4 + 3) < 10) →
      ∀ (s e : ℕ) (hp : minY + 30 ≤ s ∧ s < e ∧ e + 30 ≤ maxY),
        findRowGap data width minX maxX minY maxY threshold = some ⟨(s, e), hp⟩ →
        m < s) ∧
    (∀ (data : ℕ → ℕ) (width minX maxX minY maxY m : ℕ) (threshold : ℚ),
      m ≤ maxY →
      (∀ y x, m ≤ y → y ≤ maxY → minX ≤ x → x ≤ maxX →
        data ((y * width + x) * 4 + 3) < 10) →
      ∀ (s e : ℕ) (hp : minY + 30 ≤ s ∧ s < e ∧ e + 30 ≤ maxY),
        findRowGap data width minX maxX minY maxY threshold = some ⟨(s, e), hp⟩ →
        e < m) ∧
    (∀ (data : ℕ → ℕ) (width height minX maxX minY maxY m : ℕ) (threshold : ℚ),
      minX ≤ m →
      (∀ y x, minY ≤ y → y ≤ maxY → minX ≤ x → x ≤ m →
        data ((y * width + x) * 4 + 3) < 10) →
      ∀ (s e : ℕ) (hp : minX + 30 ≤ s ∧ s < e ∧ e + 30 ≤ maxX),
        findColGap data width height minX maxX minY maxY threshold = some ⟨(s, e), hp⟩ →
        m < s) ∧
    (∀ (data : ℕ → ℕ) (width height minX maxX minY maxY m : ℕ) (threshold : ℚ),
      m ≤ maxX →
      (∀ y x, minY ≤ y → y ≤ maxY → m ≤ x → x ≤ maxX →
        data ((y * width + x) * 4 + 3) < 10) →
      ∀ (s e : ℕ) (hp : minX + 30 ≤ s ∧ s < e ∧ e + 30 ≤ maxX),
        findColGap data width height minX maxX minY maxY threshold = some ⟨(s, e), hp⟩ →
        e < m) := by
  refine ⟨getRowEnergy_eq_filtered, getColEnergy_eq_filtered, ?_, ?_, ?_, ?_⟩
  · intro data width minX maxX minY maxY m threshold hm htrans s e hp hfind
    obtain ⟨hgap1, hgap2, hgap3, hflat, hend, hstart⟩ :=
      findGap_spec _ _ _ _ _ s e hp hfind
    have hlen : (rowRawProfile data width minX maxX minY maxY).length = maxY - minY + 1 := by
      unfold rowRawProfile
      simp
    have hzero : ∀ j, j < (rowRawProfile data width minX maxX minY maxY).length →
        minY + j ≤ m → (rowRawProfile data width minX maxX minY maxY).getD j 0 = 0 := by
      intro j hj hjm
      rw [rowRawProfile_getD data width minX maxX minY maxY j (by omega)]
      refine getRowEnergy_zero_of_transparent data width (minY + j) minX maxX ?_
      intro x hx1 hx2
      exact ⟨htrans (minY + j) x (by omega) hjm hx1 (by omega),
        htrans (minY + j) (x + 1) (by omega) hjm (by omega) (by omega)⟩
    have hsm1 : ¬ rowEnergyAt data width minX maxX minY maxY threshold (s - 1) < 5 := by
      rcases hstart with h | h
      · exact absurd h (by omega)
      · exact h
    refine dilated_run_start_after_zero_prefix
      (rowRawProfile data width minX maxX minY maxY) (dilationRadiusOf threshold)
      minY m s hzero (by omega) (by rw [hlen]; omega) hsm1 ?_
    exact hflat s le_rfl (by omega)
  · intro data width minX maxX minY maxY m threshold hm htrans s e hp hfind
    obtain ⟨hgap1, hgap2, hgap3, hflat, hend, hstart⟩ :=
      findGap_spec _ _ _ _ _ s e hp hfind
    have hlen : (rowRawProfile data width minX maxX minY maxY).length = maxY - minY + 1 := by
      unfold rowRawProfile
      simp
    have hzero : ∀ j, j < (rowRawProfile data width minX maxX minY maxY).length →
        m ≤ minY + j → (rowRawProfile data width minX maxX minY maxY).getD j 0 = 0 := by
      intro j hj hjm
      rw [rowRawProfile_getD data width minX maxX minY maxY j (by omega)]
      refine getRowEnergy_zero_of_transparent data width (minY + j) minX maxX ?_
      intro x hx1 hx2
      rw [hlen] at hj
      exact ⟨htrans (minY + j) x hjm (by omega) hx1 (by omega),
        htrans (minY + j) (x + 1) hjm (by omega) (by omega) (by omega)⟩
    refine dilated_run_end_before_zero_suffix
      (rowRawProfile data width minX maxX minY maxY) (dilationRadiusOf threshold)
      minY m s e hzero (by omega) (by omega) (by rw [hlen]; omega) hend ?_
    exact hflat (e - 1) (by omega) (by omega)
  · intro data width height minX maxX minY maxY m threshold hm htrans s e hp hfind
    obtain ⟨hgap1, hgap2, hgap3, hflat, hend, hstart⟩ :=
      findGap_spec _ _ _ _ _ s e hp hfind
    have hlen : (colRawProfile data width height minX maxX minY maxY).length
        = maxX - minX + 1 := by
      unfold colRawProfile
      simp
    have hzero : ∀ j, j < (colRawProfile data width height minX maxX minY maxY).length →
        minX + j ≤ m → (colRawProfile data width height minX maxX minY maxY).getD j 0 = 0 := by
      intro j hj hjm
      rw [colRawProfile_getD data width height minX maxX minY maxY j (by omega)]
      refine getColEnergy_zero_of_transparent data width height (minX + j) minY maxY ?_
      intro y hy1 hy2
      exact ⟨htrans y (minX + j) hy1 (by omega) (by omega) hjm,
        htrans (y + 1) (minX + j) (by omega) (by omega) (by omega) hjm⟩
    have hsm1 : ¬ colEnergyAt data width height minX maxX minY maxY threshold (s - 1) < 5 := by
      rcases hstart with h | h
      · exact absurd h (by omega)
      · exact h
    refine dilated_run_start_after_zero_prefix
      (colRawProfile data width height minX maxX minY maxY) (dilationRadiusOf threshold)
      minX m s hzero (by omega) (by rw [hlen]; omega) hsm1 ?_
    exact hflat s le_rfl (by omega)
  · intro data width height minX maxX minY maxY m threshold hm htrans s e hp hfind
    obtain ⟨hgap1, hgap2, hgap3, hflat, hend, hstart⟩ :=
      findGap_spec _ _ _ _ _ s e hp hfind
    have hlen : (colRawProfile data width height minX maxX minY maxY).length
        = maxX - minX + 1 := by
      unfold colRawProfile
      simp
    have hzero : ∀ j, j < (colRawProfile data width height minX maxX minY maxY).length →
        m ≤ minX + j → (colRawProfile data width height minX maxX minY maxY).getD j 0 = 0 := by
      intro j hj hjm
      rw [colRawProfile_getD data width height minX maxX minY maxY j (by omega)]
      refine getColEnergy_zero_of_transparent data width height (minX + j) minY maxY ?_
      intro y hy1 hy2
      rw [hlen] at hj
      exact ⟨htrans y (minX + j) hy1 (by omega) hjm (by omega),
        htrans (y + 1) (minX + j) (by omega) (by omega) hjm (by omega)⟩
    refine dilated_run_end_before_zero_suffix
      (colRawProfile data width height minX maxX minY maxY) (dilationRadiusOf threshold)
      minX m s e hzero (by omega) (by omega) (by rw [hlen]; omega) hend ?_
    exact hflat (e - 1) (by omega) (by omega)

/-- C4 witness: on an all-transparent buffer both filtered energies
over all-skipped ranges evaluate to 0, and on the 200x100 rect with
threshold 50 every margin bound is concretely instantiated: accepted
row gaps start below row 50 and end above row 50, accepted column gaps
start right of column 50 and end left of column 50. -/
theorem energy_transparent_margin_witness :
    getRowEnergy (fun _ => 0) 1 0 0 2 = 0 ∧
    getColEnergy (fun _ => 0) 1 1 0 0 2 = 0 ∧
    ((0 : ℕ) ≤ 50 ∧
      (∀ y x : ℕ, 0 ≤ y → y ≤ 50 → 0 ≤ x → x ≤ 199 →
        (fun _ => (0 : ℕ)) ((y * 200 + x) * 4 + 3) < 10) ∧
      (∀ (s e : ℕ) (hp : 0 + 30 ≤ s ∧ s < e ∧ e + 30 ≤ 99),
        findRowGap (fun _ => 0) 200 0 199 0 99 50 = some ⟨(s, e), hp⟩ → 50 < s)) ∧
    ((50 : ℕ) ≤ 99 ∧
      (∀ y x : ℕ, 50 ≤ y → y ≤ 99 → 0 ≤ x → x ≤ 199 →
        (fun _ => (0 : ℕ)) ((y * 200 + x) * 4 + 3) < 10) ∧
      (∀ (s e : ℕ) (hp : 0 + 30 ≤ s ∧ s < e ∧ e + 30 ≤ 99),
        findRowGap (fun _ => 0) 200 0 199 0 99 50 = some ⟨(s, e), hp⟩ → e < 50)) ∧
    ((0 : ℕ) ≤ 50 ∧
      (∀ y x : ℕ, 0 ≤ y → y ≤ 99 → 0 ≤ x → x ≤ 50 →
        (fun _ => (0 : ℕ)) ((y * 200 + x) * 4 + 3) < 10) ∧
      (∀ (s e : ℕ) (hp : 0 + 30 ≤ s ∧ s < e ∧ e + 30 ≤ 199),
        findColGap (fun _ => 0) 200 100 0 199 0 99 50 = some ⟨(s, e), hp⟩ → 50 < s)) ∧
    ((50 : ℕ) ≤ 199 ∧
      (∀ y x : ℕ, 0 ≤ y → y ≤ 99 → 50 ≤ x → x ≤ 199 →
        (fun _ => (0 : ℕ)) ((y * 200 + x) * 4 + 3) < 10) ∧
      (∀ (s e : ℕ) (hp : 0 + 30 ≤ s ∧ s < e ∧ e + 30 ≤ 199),
        findColGap (fun _ => 0) 200 100 0 199 0 99 50 = some ⟨(s, e), hp⟩ → e < 50)) := by
  refine ⟨?_, ?_, ?_, ?_, ?_, ?_⟩
  · rw [energy_transparent_margin.1 (fun _ => 0) 1 0 0 2]
    with_unfolding_all decide
  · rw [energy_transparent_margin.2.1 (fun _ => 0) 1 1 0 0 2]
    with_unfolding_all decide
  · refine ⟨by omega, fun y x _ _ _ _ => by norm_num, ?_⟩
    exact energy_transparent_margin.2.2.1 (fun _ => 0) 200 0 199 0 99 50 50
      (by omega) (fun y x _ _ _ _ => by norm_num)
  · refine ⟨by omega, fun y x _ _ _ _ => by norm_num, ?_⟩
    exact energy_transparent_margin.2.2.2.1 (fun _ => 0) 200 0 199 0 99 50 50
      (by omega) (fun y x _ _ _ _ => by norm_num)
  · refine ⟨by omega, fun y x _ _ _ _ => by norm_num, ?_⟩
    exact energy_transparent_margin.2.2.2.2.1 (fun _ => 0) 200 100 0 199 0 99 50 50
      (by omega) (fun y x _ _ _ _ => by norm_num)
  · refine ⟨by omega, fun y x _ _ _ _ => by norm_num, ?_⟩
    exact energy_transparent_margin.2.2.2.2.2 (fun _ => 0) 200 100 0 199 0 99 50 50
      (by omega) (fun y x _ _ _ _ => by norm_num)

/-- Every region emitted by `splitBox` is the normalized image of a
sub-rect of the input rect. -/
theorem splitBox_mem_bounds (n : ℕ) :
    ∀ (minX minY maxX maxY : ℕ) (data : ℕ → ℕ) (width height bgR bgG bgB : ℕ)
      (threshold : ℚ) (r : Region),
      (maxY - minY) + (maxX - minX) ≤ n →
      minX ≤ maxX → minY ≤ maxY →
      r ∈ splitBox minX minY maxX maxY data width height bgR bgG bgB threshold →
      ∃ a b c d : ℕ, minX ≤ a ∧ a ≤ c ∧ c ≤ maxX ∧ minY ≤ b ∧ b ≤ d ∧ d ≤ maxY ∧
        r = regionOfRect a b c d width height := by
  induction n with
  | zero =>
    intro minX minY maxX maxY data width height bgR bgG bgB threshold r hn hx hy hr
    rw [splitBox, if_pos (by omega)] at hr
    rw [List.mem_singleton] at hr
    exact ⟨minX, minY, maxX, maxY, le_rfl, hx, le_rfl, le_rfl, hy, le_rfl, hr⟩
  | succ n ih =>
    intro minX minY maxX maxY data width height bgR bgG bgB threshold r hn hx hy hr
    rw [splitBox] at hr
    by_cases hsmall : maxX - minX < 80 ∨ maxY - minY < 80
    · rw [if_pos hsmall, List.mem_singleton] at hr
      exact ⟨minX, minY, maxX, maxY, le_rfl, hx, le_rfl, le_rfl, hy, le_rfl, hr⟩
    · rw [if_neg hsmall] at hr
      cases hg : findRowGap data width minX maxX minY maxY threshold with
      | some g =>
        obtain ⟨⟨s, e⟩, hgp⟩ := g
        rw [hg] at hr
        simp only [List.mem_append] at hr
        rcases hr with hr | hr
        · obtain ⟨a, b, c, d, h1, h2, h3, h4, h5, h6, h7⟩ :=
            ih minX minY maxX (s - 1) data width height bgR bgG bgB threshold r
              (by omega) hx (by omega) hr
          exact ⟨a, b, c, d, h1, h2, h3, h4, h5, by omega, h7⟩
        · obtain ⟨a, b, c, d, h1, h2, h3, h4, h5, h6, h7⟩ :=
            ih minX e maxX maxY data width height bgR bgG bgB threshold r
              (by omega) hx (by omega) hr
          exact ⟨a, b, c, d, h1, h2, h3, by omega, h5, h6, h7⟩
      | none =>
        rw [hg] at hr
        cases hg2 : findColGap data width height minX maxX minY maxY threshold with
        | some g =>
          obtain ⟨⟨s, e⟩, hgp⟩ := g
          rw [hg2] at hr
          simp only [List.mem_append] at hr
          rcases hr with hr | hr
          · obtain ⟨a, b, c, d, h1, h2, h3, h4, h5, h6, h7⟩ :=
              ih minX minY (s - 1) maxY data width height bgR bgG bgB threshold r
                (by omega) (by omega) hy hr
            exact ⟨a, b, c, d, h1, h2, by omega, h4, h5, h6, h7⟩
          · obtain ⟨a, b, c, d, h1, h2, h3, h4, h5, h6, h7⟩ :=
              ih e minY maxX maxY data width height bgR bgG bgB threshold r
                (by omega) (by omega) hy hr
            exact ⟨a, b, c, d, by omega, h2, h3, h4, h5, h6, h7⟩
        | none =>
          rw [hg2, List.mem_singleton] at hr
          exact ⟨minX, minY, maxX, maxY, le_rfl, hx, le_rfl, le_rfl, hy, le_rfl, hr⟩

/-- C10: for every well-formed input rect, every Region returned by
`splitBox` lies inside that rect in normalized coordinates. -/
theorem splitBox_containment
    (minX minY maxX maxY : ℕ) (data : ℕ → ℕ) (width height bgR bgG bgB : ℕ)
    (threshold : ℚ) (hx : minX ≤ maxX) (hy : minY ≤ maxY) :
    ∀ r ∈ splitBox minX minY maxX maxY data width height bgR bgG bgB threshold,
      (minX : ℚ) / (width : ℚ) ≤ r.x ∧ (minY : ℚ) / (height : ℚ) ≤ r.y ∧
      r.x + r.width ≤ (maxX : ℚ) / (width : ℚ) ∧
      r.y + r.height ≤ (maxY : ℚ) / (height : ℚ) := by
  intro r hr
  obtain ⟨a, b, c, d, h1, h2, h3, h4, h5, h6, h7⟩ :=
    splitBox_mem_bounds ((maxY - minY) + (maxX - minX))
      minX minY maxX maxY data width height bgR bgG bgB threshold r le_rfl hx hy hr
  subst h7
  unfold regionOfRect
  refine ⟨?_, ?_, ?_, ?_⟩
  · exact div_le_div_of_nonneg_right (by exact_mod_cast h1) (by positivity)
  · exact div_le_div_of_nonneg_right (by exact_mod_cast h4) (by positivity)
  · have hsum : (a : ℚ) / (width : ℚ) + ((c - a : ℕ) : ℚ) / (width : ℚ)
        = (c : ℚ) / (width : ℚ) := by
      rw [Nat.cast_sub h2, div_add_div_same]
      congr 1
      ring
    simp only []
    rw [hsum]
    exact div_le_div_of_nonneg_right (by exact_mod_cast h3) (by positivity)
  · have hsum : (b : ℚ) / (height : ℚ) + ((d - b : ℕ) : ℚ) / (height : ℚ)
        = (d : ℚ) / (height : ℚ) := by
      rw [Nat.cast_sub h5, div_add_div_same]
      congr 1
      ring
    simp only []
    rw [hsum]
    exact div_le_div_of_nonneg_right (by exact_mod_cast h6) (by positivity)

/-- C10 witness: the containment bounds instantiated on a concrete
20x20 sub-rect of a 30x30 buffer. -/
theorem splitBox_containment_witness :
    (1 : ℕ) ≤ 20 ∧
    ∀ r ∈ splitBox 1 1 20 20 (fun _ => 0) 30 30 0 0 0 50,
      ((1 : ℕ) : ℚ) / ((30 : ℕ) : ℚ) ≤ r.x ∧ ((1 : ℕ) : ℚ) / ((30 : ℕ) : ℚ) ≤ r.y ∧
      r.x + r.width ≤ ((20 : ℕ) : ℚ) / ((30 : ℕ) : ℚ) ∧
      r.y + r.height ≤ ((20 : ℕ) : ℚ) / ((30 : ℕ) : ℚ) :=
  ⟨by omega, splitBox_containment 1 1 20 20 (fun _ => 0) 30 30 0 0 0 50
    (by omega) (by omega)⟩

/-! ## ResultNormalizer (`geminiService.ts`, `detectSegments`)

The post-parse normalization stage: scale detection over the parsed
boxes, per-box axis resolution, clamping into the unit square, and the
64px size filter.  A raw box is either a numeric array or a
named-corner object, as accepted by the source. -/

/-- Raw bounding box parsed from the recognizer response. -/
inductive RawBox where
  | arr (vs : List ℚ)
  | obj (ymin xmin ymax xmax : ℚ)
deriving DecidableEq, Repr

/-- Largest numeric value over all array-shaped boxes, starting from 0
(the `maxVal` scan; object boxes are not inspected, mirroring the
`Array.isArray` guard). -/
def maxValOf (boxes : List RawBox) : ℚ :=
  boxes.foldl (fun m b =>
    match b with
    | .arr vs => vs.foldl (fun m' v => if v > m' then v else m') m
    | .obj _ _ _ _ => m) 0

/-- JavaScript `Math.round`. -/
def jsRound (q : ℚ) : ℤ := ⌊q + 1 / 2⌋

/-- Aspect-preserving resize of `imgW x imgH` to fit in
`maxSize x maxSize` (the rule of `compressAndConvertToBase64`,
recomputed in `detectSegments` for absolute-pixel scale detection). -/
def compressedDims (imgW imgH maxSize : ℕ) : ℕ × ℕ :=
  if imgW > maxSize ∨ imgH > maxSize then
    if imgW > imgH then
      (maxSize, (jsRound (((imgH * maxSize : ℕ) : ℚ) / (imgW : ℚ))).toNat)
    else
      ((jsRound (((imgW * maxSize : ℕ) : ℚ) / (imgH : ℚ))).toNat, maxSize)
  else (imgW, imgH)

/-- Scale factor detection of `detectSegments`. -/
def scaleFactorOf (boxes : List RawBox) (imgW imgH : ℕ) : ℚ :=
  if 1 < maxValOf boxes ∧ maxValOf boxes ≤ 3/2 then 1
  else if 1 < maxValOf boxes ∧ maxValOf boxes ≤ 1000 then 1000
  else if 1000 < maxValOf boxes then
    ((max (compressedDims imgW imgH 768).1 (compressedDims imgW imgH 768).2 : ℕ) : ℚ)
  else 1

/-- Per-box normalization: divide by the scale factor, resolve the axis
order (default `[ymin, xmin, ymax, xmax]`, falling back to min/max
pairing when that is geometrically invalid), and clamp into the unit
square. -/
def normalizeRawBox (b : RawBox) (scaleFactor : ℚ) : Option Region :=
  match b with
  | .arr vs =>
    if 4 ≤ vs.length then
      let v0 := if 1 < scaleFactor then vs.getD 0 0 / scaleFactor else vs.getD 0 0
      let v1 := if 1 < scaleFactor then vs.getD 1 0 / scaleFactor else vs.getD 1 0
      let v2 := if 1 < scaleFactor then vs.getD 2 0 / scaleFactor else vs.getD 2 0
      let v3 := if 1 < scaleFactor then vs.getD 3 0 / scaleFactor else vs.getD 3 0
      let ymin := if v0 > v2 ∨ v1 > v3 then min v1 v3 else v0
      let xmin := if v0 > v2 ∨ v1 > v3 then min v0 v2 else v1
      let ymax := if v0 > v2 ∨ v1 > v3 then max v1 v3 else v2
      let xmax := if v0 > v2 ∨ v1 > v3 then max v0 v2 else v3
      let x := max 0 (min 1 xmin)
      let y := max 0 (min 1 ymin)
      some ⟨x, y, max 0 (min (1 - x) (xmax - xmin)), max 0 (min (1 - y) (ymax - ymin))⟩
    else none
  | .obj ymin xmin ymax xmax =>
    let ymin' := if 1 < scaleFactor then ymin / scaleFactor else ymin
    let xmin' := if 1 < scaleFactor then xmin / scaleFactor else xmin
    let ymax' := if 1 < scaleFactor then ymax / scaleFactor else ymax
    let xmax' := if 1 < scaleFactor then xmax / scaleFactor else xmax
    let x := max 0 (min 1 xmin')
    let y := max 0 (min 1 ymin')
    some ⟨x, y, max 0 (min (1 - x) (xmax' - xmin')), max 0 (min (1 - y) (ymax' - ymin'))⟩

/-- Full normalization stage of `detectSegments`: scale detection,
per-box normalization, and the strict 64px size filter against the
original image dimensions. -/
def detectedBoxes (boxes : List RawBox) (imgW imgH : ℕ) : List Region :=
  ((boxes.filterMap (fun b => normalizeRawBox b (scaleFactorOf boxes imgW imgH))).filter
    (fun r => decide (r.width * (imgW : ℚ) > 64) && decide (r.height * (imgH : ℚ) > 64)))

/-- Largest absolute numeric value across all boxes, as the spec's
scale-detection sentence defines `maxVal` (spec-side definition, for
comparison with the source's `maxValOf`). -/
def absMaxValSpec (boxes : List RawBox) : ℚ :=
  boxes.foldl (fun m b =>
    match b with
    | .arr vs => vs.foldl (fun m' v => max m' |v|) m
    | .obj ymin xmin ymax xmax => max (max (max (max m |ymin|) |xmin|) |ymax|) |xmax|) 0

set_option maxRecDepth 40000 in
/-- C5 counterexample: a box list containing the value -2000 has
largest absolute value 2000 > 1000, so under the claim's reading the
scale should be the resized image's larger side (100 here), but the
source's `maxVal` scan ignores negative values and detects scale 1. -/
theorem scaleFactor_not_absolute :
    1000 < absMaxValSpec [RawBox.arr [-2000, 1/2, 1/2, 1/2]] ∧
    ((max (compressedDims 100 100 768).1 (compressedDims 100 100 768).2 : ℕ) : ℚ) = 100 ∧
    scaleFactorOf [RawBox.arr [-2000, 1/2, 1/2, 1/2]] 100 100 ≠ 100 := by
  refine ⟨by with_unfolding_all decide, by with_unfolding_all decide, ?_⟩
  with_unfolding_all decide

set_option maxRecDepth 40000 in
/-- C5 amended: with `maxVal` the largest plain (signed) numeric value
over array-shaped boxes, never below 0 — not the largest absolute value
over all boxes — the detection regimes hold: `maxVal ≤ 1.5` gives scale
1, `1.5 < maxVal ≤ 1000` gives scale 1000, `maxVal > 1000` gives the
larger side of the aspect-preserving 768px resize; boxes with
population max 500 are detected as thousandths scale and the output is
the input divided by 1000, clamped. -/
theorem scaleFactor_detection :
    (∀ (boxes : List RawBox) (imgW imgH : ℕ),
      maxValOf boxes ≤ 3/2 → scaleFactorOf boxes imgW imgH = 1) ∧
    (∀ (boxes : List RawBox) (imgW imgH : ℕ),
      3/2 < maxValOf boxes → maxValOf boxes ≤ 1000 →
      scaleFactorOf boxes imgW imgH = 1000) ∧
    (∀ (boxes : List RawBox) (imgW imgH : ℕ),
      1000 < maxValOf boxes →
      scaleFactorOf boxes imgW imgH =
        ((max (compressedDims imgW imgH 768).1 (compressedDims imgW imgH 768).2 : ℕ) : ℚ)) ∧
    (∀ (boxes : List RawBox) (imgW imgH : ℕ),
      maxValOf boxes = 500 → scaleFactorOf boxes imgW imgH = 1000) ∧
    detectedBoxes [RawBox.arr [0, 0, 500, 500], RawBox.arr [100, 200, 400, 300]] 10000 10000
      = [⟨0, 0, 1/2, 1/2⟩, ⟨1/5, 1/10, 1/10, 3/10⟩] := by
  refine ⟨?_, ?_, ?_, ?_, ?_⟩
  · intro boxes imgW imgH h
    unfold scaleFactorOf
    by_cases h1 : 1 < maxValOf boxes ∧ maxValOf boxes ≤ 3/2
    · rw [if_pos h1]
    · rw [if_neg h1, if_neg (by push_neg at h1 ⊢; intro h2; linarith [h1 h2]),
        if_neg (by push_neg; linarith)]
  · intro boxes imgW imgH h1 h2
    unfold scaleFactorOf
    rw [if_neg (by push_neg; intro _; linarith), if_pos ⟨by linarith, h2⟩]
  · intro boxes imgW imgH h
    unfold scaleFactorOf
    rw [if_neg (by push_neg; intro _; linarith), if_neg (by push_neg; intro _; linarith),
      if_pos h]
  · intro boxes imgW imgH h
    unfold scaleFactorOf
    rw [h]
    rw [if_neg (by push_neg; intro _; norm_num), if_pos ⟨by norm_num, by norm_num⟩]
  · with_unfolding_all decide

set_option maxRecDepth 40000 in
/-- C5 witness: the regimes instantiated at concrete box lists. -/
theorem scaleFactor_detection_witness :
    (maxValOf [RawBox.arr [1/2, 1/2, 1, 1]] ≤ 3/2 ∧
      scaleFactorOf [RawBox.arr [1/2, 1/2, 1, 1]] 50 50 = 1) ∧
    (3/2 < maxValOf [RawBox.arr [10, 10, 900, 900]] ∧
      maxValOf [RawBox.arr [10, 10, 900, 900]] ≤ 1000 ∧
      scaleFactorOf [RawBox.arr [10, 10, 900, 900]] 50 50 = 1000) ∧
    (1000 < maxValOf [RawBox.arr [0, 0, 1500, 1500]] ∧
      scaleFactorOf [RawBox.arr [0, 0, 1500, 1500]] 1536 768 = 768) ∧
    (maxValOf [RawBox.arr [0, 0, 500, 500], RawBox.arr [100, 200, 400, 300]] = 500 ∧
      scaleFactorOf [RawBox.arr [0, 0, 500, 500], RawBox.arr [100, 200, 400, 300]] 10000 10000
        = 1000) := by
  refine ⟨⟨?_, ?_⟩, ⟨?_, ?_, ?_⟩, ⟨?_, ?_⟩, ⟨?_, ?_⟩⟩
  · with_unfolding_all decide
  · exact scaleFactor_detection.1 _ 50 50 (by with_unfolding_all decide)
  · with_unfolding_all decide
  · with_unfolding_all decide
  · exact scaleFactor_detection.2.1 _ 50 50 (by with_unfolding_all decide)
      (by with_unfolding_all decide)
  · with_unfolding_all decide
  · rw [scaleFactor_detection.2.2.1 _ 1536 768 (by with_unfolding_all decide)]
    with_unfolding_all decide
  · with_unfolding_all decide
  · exact scaleFactor_detection.2.2.2.1 _ 10000 10000 (by with_unfolding_all decide)

/-! ## Parse-recovery chain of `detectSegments`

The platform's `JSON.parse` and the two regular-expression extractions
are modelled as oracle parameters; the chain's control flow (strategies
1-4 of the source and the final unparsable throw) is transcribed
faithfully.  `Except.error ()` stands for the explicit unparsable
exception the source throws. -/

/-- Minimal JSON value model. -/
inductive JsonVal where
  | null
  | bool (b : Bool)
  | num (q : ℚ)
  | str (s : String)
  | arr (xs : List JsonVal)
  | obj (fields : List (String × JsonVal))

/-- Property access `v[name]`; non-objects give `undefined` (`none`). -/
def getField (v : JsonVal) (name : String) : Option JsonVal :=
  match v with
  | .obj fields => (fields.find? (fun f => f.1 == name)).map (fun f => f.2)
  | _ => none

/-- JavaScript truthiness of a JSON value. -/
def truthy : JsonVal → Bool
  | .null => false
  | .bool b => b
  | .num q => decide (q ≠ 0)
  | .str s => !s.isEmpty
  | .arr _ => true
  | .obj _ => true

/-- Truthiness of `v[name]` (`undefined` is falsy). -/
def fieldTruthy (v : JsonVal) (name : String) : Bool :=
  match getField v name with
  | some f => truthy f
  | none => false

/-- JavaScript `value.length === 0` for the values the chain can put in
`boxes` (an `undefined` length compares false against 0). -/
def lenIsZero : JsonVal → Bool
  | .arr xs => xs.isEmpty
  | .str s => s.isEmpty
  | _ => false

/-- The initializer `{ boxes: [] }` of the `result` variable. -/
def initResult : JsonVal := JsonVal.obj [("boxes", JsonVal.arr [])]

/-- The `boxes` field when it is an array (`Array.isArray` guard). -/
def boxesArray (v : JsonVal) : Option (List JsonVal) :=
  match getField v "boxes" with
  | some (.arr xs) => some xs
  | _ => none

/-- Recovery chain run inside the `catch` branch: strategy 2 (fenced
code block), strategy 3 (bare object extraction, only when the current
`boxes` field is falsy), strategy 4 (regex recovery of individual
0-1-ranged 4-number arrays, only when the current `boxes` field is
still falsy). -/
def recoverResult (parse : String → Option JsonVal)
    (fenced objMatch : String → Option String)
    (regexBoxes : String → List (List ℚ)) (text : String) : JsonVal :=
  let r1 := match fenced text with
    | some inner =>
      match parse inner with
      | some v => v
      | none => initResult
    | none => initResult
  let r2 := if fieldTruthy r1 "boxes" then r1
    else match objMatch text with
      | some o =>
        match parse o with
        | some v => v
        | none => r1
      | none => r1
  if fieldTruthy r2 "boxes" then r2
  else
    let bs := (regexBoxes text).filter
      (fun ns => ns.all (fun q => decide (0 ≤ q) && decide (q ≤ 1)))
    if 0 < bs.length then
      JsonVal.obj [("boxes", JsonVal.arr (bs.map (fun ns => JsonVal.arr (ns.map .num))))]
    else r2

/-- Parsing stage of `detectSegments`: direct parse, else the recovery
chain followed by the unparsable throw when no boxes survive, then the
`Array.isArray` guard that silently yields an empty list. -/
def parseStage (parse : String → Option JsonVal)
    (fenced objMatch : String → Option String)
    (regexBoxes : String → List (List ℚ)) (text : String) :
    Except Unit (List JsonVal) :=
  match parse text with
  | some v =>
    match boxesArray v with
    | some xs => .ok xs
    | none => .ok []
  | none =>
    if !(fieldTruthy (recoverResult parse fenced objMatch regexBoxes text) "boxes") ||
        lenIsZero ((getField (recoverResult parse fenced objMatch regexBoxes text)
          "boxes").getD .null) then
      .error ()
    else
      match boxesArray (recoverResult parse fenced objMatch regexBoxes text) with
      | some xs => .ok xs
      | none => .ok []

/-- Constant test oracles for the counterexample. -/
def cParse : String → Option JsonVal :=
  fun t => if t = "emptyobj" then some (JsonVal.obj []) else none

def cNoMatch : String → Option String := fun _ => none

def cNoBoxes : String → List (List ℚ) := fun _ => []

/-- C6 counterexample: a recognizer text whose direct JSON parse
succeeds with an object carrying no boxes yields an empty success list
from the parsing stage, not the unparsable failure — so a text from
which no boxes survive does not always raise the failure. -/
theorem parseStage_empty_success :
    parseStage cParse cNoMatch cNoMatch cNoBoxes "emptyobj" = .ok [] := by
  with_unfolding_all rfl

/-- C6 amended: the unparsable failure is raised exactly on the catch
path (direct parse threw); there, when the recovery chain ends with a
falsy or length-zero `boxes` field the caller receives the explicit
failure, and when it ends with an array-valued `boxes` field the stage
either fails or returns that array, which is then non-empty; but when
the direct parse succeeds with no surviving boxes the stage returns an
empty success. -/
theorem parseStage_unparsable :
    (∀ (parse : String → Option JsonVal) (fenced objMatch : String → Option String)
      (regexBoxes : String → List (List ℚ)) (text : String),
      parse text = none →
      (fieldTruthy (recoverResult parse fenced objMatch regexBoxes text) "boxes" = false ∨
        lenIsZero ((getField (recoverResult parse fenced objMatch regexBoxes text)
          "boxes").getD .null) = true) →
      parseStage parse fenced objMatch regexBoxes text = .error ()) ∧
    (∀ (parse : String → Option JsonVal) (fenced objMatch : String → Option String)
      (regexBoxes : String → List (List ℚ)) (text : String) (xs : List JsonVal),
      parse text = none →
      getField (recoverResult parse fenced objMatch regexBoxes text) "boxes"
        = some (.arr xs) →
      parseStage parse fenced objMatch regexBoxes text = .error () ∨
        (parseStage parse fenced objMatch regexBoxes text = .ok xs ∧ xs ≠ [])) := by
  constructor
  · intro parse fenced objMatch regexBoxes text hp hcond
    unfold parseStage
    rw [hp]
    have hb : (!(fieldTruthy (recoverResult parse fenced objMatch regexBoxes text) "boxes") ||
        lenIsZero ((getField (recoverResult parse fenced objMatch regexBoxes text)
          "boxes").getD .null)) = true := by
      rcases hcond with h | h
      · rw [h]
        rfl
      · rw [h]
        simp
    rw [hb]
    rfl
  · intro parse fenced objMatch regexBoxes text xs hp hfield
    unfold parseStage
    rw [hp]
    by_cases hc : (!(fieldTruthy (recoverResult parse fenced objMatch regexBoxes text) "boxes") ||
        lenIsZero ((getField (recoverResult parse fenced objMatch regexBoxes text)
          "boxes").getD .null)) = true
    · rw [hc]
      exact Or.inl rfl
    · rw [Bool.not_eq_true] at hc
      rw [hc]
      refine Or.inr ⟨?_, ?_⟩
      · have hbx : boxesArray (recoverResult parse fenced objMatch regexBoxes text)
            = some xs := by
          unfold boxesArray
          rw [hfield]
        rw [hbx]
        rfl
      · intro hnil
        subst hnil
        rw [Bool.or_eq_false_iff] at hc
        have := hc.2
        rw [hfield] at this
        simp [lenIsZero] at this

/-- Oracles for the amended witness: a fenced block whose content
parses to an object with one box. -/
def wParse : String → Option JsonVal :=
  fun t => if t = "inner" then some (JsonVal.obj [("boxes", JsonVal.arr [JsonVal.num 1])])
    else none

def wFence : String → Option String :=
  fun t => if t = "fencedbad" then some "inner" else none

/-- C6 witness: with every strategy failing the stage raises the
unparsable failure, and with a fenced recovery producing one box the
stage does not return an empty success. -/
theorem parseStage_unparsable_witness :
    (cParse "plainbad" = none ∧
      parseStage cParse cNoMatch cNoMatch cNoBoxes "plainbad" = .error ()) ∧
    (wParse "fencedbad" = none ∧
      getField (recoverResult wParse wFence cNoMatch cNoBoxes "fencedbad") "boxes"
        = some (.arr [JsonVal.num 1]) ∧
      (parseStage wParse wFence cNoMatch cNoBoxes "fencedbad" = .error () ∨
        (parseStage wParse wFence cNoMatch cNoBoxes "fencedbad" = .ok [JsonVal.num 1] ∧
          ([JsonVal.num 1] : List JsonVal) ≠ []))) := by
  refine ⟨⟨by with_unfolding_all rfl, ?_⟩, by with_unfolding_all rfl,
    by with_unfolding_all rfl, ?_⟩
  · exact parseStage_unparsable.1 cParse cNoMatch cNoMatch cNoBoxes "plainbad"
      (by with_unfolding_all rfl) (Or.inr (by with_unfolding_all rfl))
  · exact parseStage_unparsable.2 wParse wFence cNoMatch cNoBoxes "fencedbad"
      [JsonVal.num 1] (by with_unfolding_all rfl) (by with_unfolding_all rfl)

/-! ## ConnectedComponentDetector (`imageUtils.ts`, `scanForSprites`)

The flood fill works over pixel indices `p < width * height` with an
explicit stack; `visited` is a finite set of indices.  The source
compares `Math.sqrt(distSq) > threshold`; since the effective threshold
`max(10, threshold)` is positive, that is equivalent to
`distSq > threshold²`, which is how the test is embedded to stay in
exact rational arithmetic. -/

/-- Squared Euclidean RGB distance (`colorDistance` squared). -/
def colorDistSq (r1 g1 b1 r2 g2 b2 : ℕ) : ℕ :=
  ((r1 : ℤ) - r2).natAbs ^ 2 + ((g1 : ℤ) - g2).natAbs ^ 2 + ((b1 : ℤ) - b2).natAbs ^ 2

/-- Foreground test of the scanner at pixel index `p`. -/
def isForeground (data : ℕ → ℕ) (p bgR bgG bgB : ℕ) (thr : ℚ) : Prop :=
  (colorDistSq (data (p * 4)) (data (p * 4 + 1)) (data (p * 4 + 2)) bgR bgG bgB : ℚ)
    > thr * thr

instance (data : ℕ → ℕ) (p bgR bgG bgB : ℕ) (thr : ℚ) :
    Decidable (isForeground data p bgR bgG bgB thr) := by
  unfold isForeground
  infer_instance

/-- Termination measure of the flood fill: unvisited pixels count twice,
stack entries once. -/
def floodMeasure (width height : ℕ) (v : Finset ℕ) (stack : List ℕ) : ℕ :=
  2 * ((Finset.range (width * height)) \ v).card + stack.length

/-- Processing of one neighbor candidate `n` (an integer, possibly
negative): bounds check, wraparound check, marking of transparent
neighbors, and marking-plus-push of foreground neighbors. -/
def floodNeighbor (data : ℕ → ℕ) (width height bgR bgG bgB : ℕ) (thr : ℚ) (cx cy : ℕ)
    (st : Finset ℕ × List ℕ) (n : ℤ) : Finset ℕ × List ℕ :=
  if 0 ≤ n ∧ n < ((width * height : ℕ) : ℤ) ∧ n.toNat ∉ st.1 then
    if 1 < (((n.toNat % width : ℕ) : ℤ) - (cx : ℤ)).natAbs ∨
        1 < (((n.toNat / width : ℕ) : ℤ) - (cy : ℤ)).natAbs then st
    else if data (n.toNat * 4 + 3) < 10 then (insert n.toNat st.1, st.2)
    else if isForeground data n.toNat bgR bgG bgB thr then
      (insert n.toNat st.1, n.toNat :: st.2)
    else st
  else st

/-- The four axis neighbors of the popped pixel, processed in order. -/
def floodNeighbors (data : ℕ → ℕ) (width height bgR bgG bgB : ℕ) (thr : ℚ)
    (v : Finset ℕ) (rest : List ℕ) (curr : ℕ) : Finset ℕ × List ℕ :=
  [(curr : ℤ) - 1, (curr : ℤ) + 1, (curr : ℤ) - (width : ℤ), (curr : ℤ) + (width : ℤ)].foldl
    (floodNeighbor data width height bgR bgG bgB thr (curr % width) (curr / width))
    (v, rest)

theorem floodNeighbor_measure_le (data : ℕ → ℕ) (width height bgR bgG bgB : ℕ)
    (thr : ℚ) (cx cy : ℕ) (st : Finset ℕ × List ℕ) (n : ℤ) :
    floodMeasure width height (floodNeighbor data width height bgR bgG bgB thr cx cy st n).1
        (floodNeighbor data width height bgR bgG bgB thr cx cy st n).2
      ≤ floodMeasure width height st.1 st.2 := by
  unfold floodNeighbor
  by_cases h1 : 0 ≤ n ∧ n < ((width * height : ℕ) : ℤ) ∧ n.toNat ∉ st.1
  · rw [if_pos h1]
    have hmem : n.toNat ∈ (Finset.range (width * height)) \ st.1 := by
      rw [Finset.mem_sdiff, Finset.mem_range]
      exact ⟨by omega, h1.2.2⟩
    have hcard : ((Finset.range (width * height)) \ insert n.toNat st.1).card
        = ((Finset.range (width * height)) \ st.1).card - 1 := by
      rw [Finset.sdiff_insert, Finset.card_erase_of_mem hmem]
    have hpos : 1 ≤ ((Finset.range (width * height)) \ st.1).card :=
      Finset.card_pos.2 ⟨n.toNat, hmem⟩
    by_cases h2 : 1 < (((n.toNat % width : ℕ) : ℤ) - (cx : ℤ)).natAbs ∨
        1 < (((n.toNat / width : ℕ) : ℤ) - (cy : ℤ)).natAbs
    · rw [if_pos h2]
    · rw [if_neg h2]
      by_cases h3 : data (n.toNat * 4 + 3) < 10
      · rw [if_pos h3]
        unfold floodMeasure
        simp only [hcard]
        omega
      · rw [if_neg h3]
        by_cases h4 : isForeground data n.toNat bgR bgG bgB thr
        · rw [if_pos h4]
          unfold floodMeasure
          simp only [hcard, List.length_cons]
          omega
        · rw [if_neg h4]
  · rw [if_neg h1]

theorem floodNeighbors_measure_le (data : ℕ → ℕ) (width height bgR bgG bgB : ℕ)
    (thr : ℚ) (v : Finset ℕ) (rest : List ℕ) (curr : ℕ) :
    floodMeasure width height
        (floodNeighbors data width height bgR bgG bgB thr v rest curr).1
        (floodNeighbors data width height bgR bgG bgB thr v rest curr).2
      ≤ floodMeasure width height v rest := by
  unfold floodNeighbors
  generalize [(curr : ℤ) - 1, (curr : ℤ) + 1, (curr : ℤ) - (width : ℤ),
    (curr : ℤ) + (width : ℤ)] = ns
  induction ns generalizing v rest with
  | nil => exact le_rfl
  | cons m ms ih =>
    simp only [List.foldl_cons]
    refine le_trans ?_ (floodNeighbor_measure_le data width height bgR bgG bgB thr
      (curr % width) (curr / width) (v, rest) m)
    exact ih _ _

/-- Stack-based flood fill of `scanForSprites`: pop a pixel, extend the
component bounds with its coordinates, process its four axis neighbors
(marking visited and pushing foreground ones), and continue until the
stack empties.  Returns the visited set and the component bounds
`(minX, maxX, minY, maxY)`. -/
def floodLoop (data : ℕ → ℕ) (width height bgR bgG bgB : ℕ) (thr : ℚ) :
    Finset ℕ → List ℕ → ℕ → ℕ → ℕ → ℕ → Finset ℕ × ℕ × ℕ × ℕ × ℕ
  | v, [], minX, maxX, minY, maxY => (v, minX, maxX, minY, maxY)
  | v, curr :: rest, minX, maxX, minY, maxY =>
    floodLoop data width height bgR bgG bgB thr
      (floodNeighbors data width height bgR bgG bgB thr v rest curr).1
      (floodNeighbors data width height bgR bgG bgB thr v rest curr).2
      (min minX (curr % width)) (max maxX (curr % width))
      (min minY (curr / width)) (max maxY (curr / width))
termination_by v stack _ _ _ _ => floodMeasure width height v stack
decreasing_by
  have hle := floodNeighbors_measure_le data width height bgR bgG bgB thr v rest curr
  unfold floodMeasure at hle ⊢
  simp only [List.length_cons]
  omega

/-- Minimum surviving component dimension
(`Math.max(64, Math.min(width, height) * 0.05)`). -/
def minDimensionOf (width height : ℕ) : ℚ :=
  max 64 (((min width height : ℕ) : ℚ) * (1/20))

/-- Emission of a finished component as a normalized box, subject to
the minimum-dimension filter; the fresh id is the running box count. -/
def emitBox (width height : ℕ) (boxes : List BoundingBox) (b : ℕ × ℕ × ℕ × ℕ) :
    List BoundingBox :=
  if minDimensionOf width height ≤ ((b.2.1 - b.1 + 1 : ℕ) : ℚ) ∧
      minDimensionOf width height ≤ ((b.2.2.2 - b.2.2.1 + 1 : ℕ) : ℚ) then
    boxes ++ [⟨boxes.length, (b.1 : ℚ) / (width : ℚ), ((b.2.2.1 : ℕ) : ℚ) / (height : ℚ),
      ((b.2.1 - b.1 + 1 : ℕ) : ℚ) / (width : ℚ),
      ((b.2.2.2 - b.2.2.1 + 1 : ℕ) : ℚ) / (height : ℚ)⟩]
  else boxes

/-- One step of the raster scan of `scanForSprites` at pixel index `p`:
skip visited pixels, mark transparent pixels, and flood-fill from
foreground seeds, emitting the component box. -/
def scanStep (data : ℕ → ℕ) (width height bgR bgG bgB : ℕ) (thr : ℚ)
    (st : Finset ℕ × List BoundingBox) (p : ℕ) : Finset ℕ × List BoundingBox :=
  if p ∈ st.1 then st
  else if data (p * 4 + 3) < 10 then (insert p st.1, st.2)
  else if isForeground data p bgR bgG bgB thr then
    ((floodLoop data width height bgR bgG bgB thr (insert p st.1) [p]
        (p % width) (p % width) (p / width) (p / width)).1,
      emitBox width height st.2
        (floodLoop data width height bgR bgG bgB thr (insert p st.1) [p]
          (p % width) (p % width) (p / width) (p / width)).2)
  else st

/-- Candidate boxes of the raster scan (raster order, background color
sampled at pixel 0, effective threshold `max 10 threshold`). -/
def scanBoxes (data : ℕ → ℕ) (width height : ℕ) (threshold : ℚ) : List BoundingBox :=
  ((List.range (height * width)).foldl
    (scanStep data width height (data 0) (data 1) (data 2) (max 10 threshold))
    (∅, [])).2

/-- Conversion of a merged normalized box back to a clamped pixel rect
`(minX, minY, maxX, maxY)` for the splitter. -/
def rawRect (b : BoundingBox) (width height : ℕ) : ℕ × ℕ × ℕ × ℕ :=
  ((⌊b.x * (width : ℚ)⌋).toNat, (⌊b.y * (height : ℚ)⌋).toNat,
   min (width - 1) ((⌊(b.x + b.width) * (width : ℚ)⌋).toNat),
   min (height - 1) ((⌊(b.y + b.height) * (height : ℚ)⌋).toNat))

/-- Pure core of `scanForSprites`: flood-fill scan, merge, then the
recursive gutter split of every merged box. -/
def scanForSpritesCore (data : ℕ → ℕ) (width height : ℕ) (threshold : ℚ) : List Region :=
  (mergeOverlappingBoxes (scanBoxes data width height threshold)).foldl
    (fun acc b =>
      acc ++ splitBox (rawRect b width height).1 (rawRect b width height).2.1
        (rawRect b width height).2.2.1 (rawRect b width height).2.2.2
        data width height (data 0) (data 1) (data 2) (max 10 threshold)) []

theorem floodNeighbor_stack_lt (data : ℕ → ℕ) (width height bgR bgG bgB : ℕ) (thr : ℚ)
    (cx cy : ℕ) (st : Finset ℕ × List ℕ) (n : ℤ)
    (h : ∀ m ∈ st.2, m < width * height) :
    ∀ m ∈ (floodNeighbor data width height bgR bgG bgB thr cx cy st n).2,
      m < width * height := by
  unfold floodNeighbor
  by_cases h1 : 0 ≤ n ∧ n < ((width * height : ℕ) : ℤ) ∧ n.toNat ∉ st.1
  · rw [if_pos h1]
    split_ifs with h2 h3 h4
    · exact h
    · exact h
    · intro m hm
      rcases List.mem_cons.1 hm with rfl | hm
      · omega
      · exact h m hm
    · exact h
  · rw [if_neg h1]
    exact h

theorem floodNeighbors_stack_lt (data : ℕ → ℕ) (width height bgR bgG bgB : ℕ) (thr : ℚ)
    (v : Finset ℕ) (rest : List ℕ) (curr : ℕ)
    (h : ∀ m ∈ rest, m < width * height) :
    ∀ m ∈ (floodNeighbors data width height bgR bgG bgB thr v rest curr).2,
      m < width * height := by
  unfold floodNeighbors
  generalize [(curr : ℤ) - 1, (curr : ℤ) + 1, (curr : ℤ) - (width : ℤ),
    (curr : ℤ) + (width : ℤ)] = ns
  induction ns generalizing v rest with
  | nil => exact h
  | cons m ms ih =>
    simp only [List.foldl_cons]
    exact ih _ _ (floodNeighbor_stack_lt data width height bgR bgG bgB thr
      (curr % width) (curr / width) (v, rest) m h)

theorem floodLoop_bounds (data : ℕ → ℕ) (width height bgR bgG bgB : ℕ) (thr : ℚ) :
    ∀ (v : Finset ℕ) (stack : List ℕ) (minX maxX minY maxY : ℕ),
      (∀ m ∈ stack, m < width * height) →
      minX ≤ maxX → maxX < width → minY ≤ maxY → maxY < height →
      (floodLoop data width height bgR bgG bgB thr v stack minX maxX minY maxY).2.1 ≤
          (floodLoop data width height bgR bgG bgB thr v stack minX maxX minY maxY).2.2.1 ∧
        (floodLoop data width height bgR bgG bgB thr v stack minX maxX minY maxY).2.2.1 < width ∧
        (floodLoop data width height bgR bgG bgB thr v stack minX maxX minY maxY).2.2.2.1 ≤
          (floodLoop data width height bgR bgG bgB thr v stack minX maxX minY maxY).2.2.2.2 ∧
        (floodLoop data width height bgR bgG bgB thr v stack minX maxX minY maxY).2.2.2.2 < height := by
  intro v stack minX maxX minY maxY
  induction v, stack, minX, maxX, minY, maxY
      using floodLoop.induct data width height bgR bgG bgB thr with
  | case1 v minX maxX minY maxY =>
    intro _ h2 h3 h4 h5
    rw [floodLoop]
    exact ⟨h2, h3, h4, h5⟩
  | case2 v curr rest minX maxX minY maxY ih =>
    intro hst h2 h3 h4 h5
    have hcurr : curr < width * height := hst curr (List.mem_cons_self curr rest)
    have hw : 0 < width := by
      rcases Nat.eq_zero_or_pos width with h | h
      · rw [h] at hcurr
        omega
      · exact h
    have hdiv : curr / width < height := by
      rw [Nat.div_lt_iff_lt_mul hw, Nat.mul_comm]
      exact hcurr
    have hmod : curr % width < width := Nat.mod_lt curr hw
    rw [floodLoop]
    refine ih ?_ ?_ ?_ ?_ ?_
    · exact floodNeighbors_stack_lt data width height bgR bgG bgB thr v rest curr
        (fun m hm => hst m (List.mem_cons_of_mem curr hm))
    · exact le_trans (min_le_left _ _) (le_trans h2 (le_max_left _ _))
    · exact max_lt h3 hmod
    · exact le_trans (min_le_left _ _) (le_trans h4 (le_max_left _ _))
    · exact max_lt h5 hdiv

/-! ### C1: unit-square invariants of the core outputs -/

/-- Unit-square membership of an output region. -/
def inUnit (r : Region) : Bool :=
  decide (0 ≤ r.x) && decide (0 ≤ r.y) &&
  decide (r.x + r.width ≤ 1) && decide (r.y + r.height ≤ 1)

/-- Invariant carried by candidate boxes from the raster scan through
the merger: nonnegative coordinates and sizes, with the top-left corner
scaled back to a pixel index inside the buffer. -/
def boxInv (width height : ℕ) (b : BoundingBox) : Prop :=
  0 ≤ b.x ∧ 0 ≤ b.y ∧ 0 ≤ b.width ∧ 0 ≤ b.height ∧
  b.x * (width : ℚ) ≤ ((width - 1 : ℕ) : ℚ) ∧
  b.y * (height : ℚ) ≤ ((height - 1 : ℕ) : ℚ)

theorem mergeTwoBoxes_inv (width height : ℕ) (a b : BoundingBox)
    (ha : boxInv width height a) (hb : boxInv width height b) :
    boxInv width height (mergeTwoBoxes a b) := by
  obtain ⟨ha1, ha2, ha3, ha4, ha5, ha6⟩ := ha
  obtain ⟨hb1, hb2, hb3, hb4, hb5, hb6⟩ := hb
  refine ⟨le_min ha1 hb1, le_min ha2 hb2, ?_, ?_, ?_, ?_⟩
  · have h1 : min a.x b.x ≤ a.x := min_le_left _ _
    have h2 : a.x + a.width ≤ max (a.x + a.width) (b.x + b.width) := le_max_left _ _
    show (0 : ℚ) ≤ max (a.x + a.width) (b.x + b.width) - min a.x b.x
    linarith
  · have h1 : min a.y b.y ≤ a.y := min_le_left _ _
    have h2 : a.y + a.height ≤ max (a.y + a.height) (b.y + b.height) := le_max_left _ _
    show (0 : ℚ) ≤ max (a.y + a.height) (b.y + b.height) - min a.y b.y
    linarith
  · show min a.x b.x * (width : ℚ) ≤ ((width - 1 : ℕ) : ℚ)
    exact le_trans (mul_le_mul_of_nonneg_right (min_le_left _ _) (by positivity)) ha5
  · show min a.y b.y * (height : ℚ) ≤ ((height - 1 : ℕ) : ℚ)
    exact le_trans (mul_le_mul_of_nonneg_right (min_le_left _ _) (by positivity)) ha6

theorem mergeScanFrom_preserves (P : BoundingBox → Prop)
    (hP : ∀ a b, P a → P b → P (mergeTwoBoxes a b)) :
    ∀ (bs : List BoundingBox) (i j : ℕ) (flag : Bool), i < j →
      (∀ b ∈ bs, P b) → ∀ b ∈ (mergeScanFrom bs i j flag).1, P b := by
  intro bs i j flag
  induction bs, i, j, flag using mergeScanFrom.induct with
  | case1 bs i j flag h hint ih =>
    intro hij hall
    rw [mergeScanFrom, dif_pos h, if_pos hint]
    refine ih hij ?_
    intro b hbmem
    rcases List.mem_or_eq_of_mem_set (List.mem_of_mem_eraseIdx hbmem) with hb2 | hb2
    · exact hall b hb2
    · subst hb2
      have hi : i < bs.length := lt_trans hij h
      refine hP _ _ ?_ ?_
      · rw [List.getD_eq_getElem bs default hi]
        exact hall _ (List.getElem_mem hi)
      · rw [List.getD_eq_getElem bs default h]
        exact hall _ (List.getElem_mem h)
  | case2 bs i j flag h hint ih =>
    intro hij hall
    rw [mergeScanFrom, dif_pos h, if_neg hint]
    exact ih (by omega) hall
  | case3 bs i j flag h =>
    intro _ hall
    rw [mergeScanFrom, dif_neg h]
    exact hall

theorem mergePassFrom_preserves (P : BoundingBox → Prop)
    (hP : ∀ a b, P a → P b → P (mergeTwoBoxes a b)) :
    ∀ (bs : List BoundingBox) (i : ℕ) (flag : Bool),
      (∀ b ∈ bs, P b) → ∀ b ∈ (mergePassFrom bs i flag).1, P b := by
  intro bs i flag
  induction bs, i, flag using mergePassFrom.induct with
  | case1 bs i flag h ih =>
    intro hall
    rw [mergePassFrom, dif_pos h]
    exact ih (mergeScanFrom_preserves P hP bs i (i + 1) false (by omega) hall)
  | case2 bs i flag h =>
    intro hall
    rw [mergePassFrom, dif_neg h]
    exact hall

theorem mergeLoop_preserves (P : BoundingBox → Prop)
    (hP : ∀ a b, P a → P b → P (mergeTwoBoxes a b)) :
    ∀ (bs : List BoundingBox), (∀ b ∈ bs, P b) → ∀ b ∈ mergeLoop bs, P b := by
  intro bs
  induction bs using mergeLoop.induct with
  | case1 bs h ih =>
    intro hall
    rw [mergeLoop, dif_pos h]
    exact ih (mergePassFrom_preserves P hP bs 0 false hall)
  | case2 bs h =>
    intro hall
    rw [mergeLoop, dif_neg h]
    exact mergePassFrom_preserves P hP bs 0 false hall

theorem mergeOverlappingBoxes_preserves (P : BoundingBox → Prop)
    (hP : ∀ a b, P a → P b → P (mergeTwoBoxes a b)) (bs : List BoundingBox)
    (hall : ∀ b ∈ bs, P b) : ∀ b ∈ mergeOverlappingBoxes bs, P b :=
  mergeLoop_preserves P hP bs hall

theorem mergeOverlappingBoxes_nil : mergeOverlappingBoxes [] = [] := by
  unfold mergeOverlappingBoxes
  rw [mergeLoop]
  rw [dif_neg]
  · rw [mergePassFrom, dif_neg (by simp)]
  · rw [mergePassFrom, dif_neg (by simp)]
    simp

theorem emitBox_inv (width height : ℕ) (boxes : List BoundingBox) (r : ℕ × ℕ × ℕ × ℕ)
    (hW : 0 < width) (hH : 0 < height)
    (h1 : r.1 ≤ r.2.1) (h2 : r.2.1 < width) (h3 : r.2.2.1 ≤ r.2.2.2) (h4 : r.2.2.2 < height)
    (hall : ∀ b ∈ boxes, boxInv width height b) :
    ∀ b ∈ emitBox width height boxes r, boxInv width height b := by
  unfold emitBox
  split_ifs with hc
  · intro b hb
    rcases List.mem_append.1 hb with hb | hb
    · exact hall b hb
    · rw [List.mem_singleton] at hb
      subst hb
      have hWQ : ((width : ℕ) : ℚ) ≠ 0 := Nat.cast_ne_zero.2 hW.ne'
      have hHQ : ((height : ℕ) : ℚ) ≠ 0 := Nat.cast_ne_zero.2 hH.ne'
      refine ⟨by positivity, by positivity, by positivity, by positivity, ?_, ?_⟩
      · show ((r.1 : ℕ) : ℚ) / (width : ℚ) * (width : ℚ) ≤ ((width - 1 : ℕ) : ℚ)
        rw [div_mul_cancel₀ _ hWQ]
        have : r.1 ≤ width - 1 := by omega
        exact_mod_cast this
      · show ((r.2.2.1 : ℕ) : ℚ) / (height : ℚ) * (height : ℚ) ≤ ((height - 1 : ℕ) : ℚ)
        rw [div_mul_cancel₀ _ hHQ]
        have : r.2.2.1 ≤ height - 1 := by omega
        exact_mod_cast this
  · exact hall

theorem scanStep_inv (data : ℕ → ℕ) (width height bgR bgG bgB : ℕ) (thr : ℚ)
    (st : Finset ℕ × List BoundingBox) (p : ℕ) (hp : p < height * width)
    (hall : ∀ b ∈ st.2, boxInv width height b) :
    ∀ b ∈ (scanStep data width height bgR bgG bgB thr st p).2, boxInv width height b := by
  have hW : 0 < width := by
    rcases Nat.eq_zero_or_pos width with h | h
    · rw [h, Nat.mul_zero] at hp
      omega
    · exact h
  have hH : 0 < height := by
    rcases Nat.eq_zero_or_pos height with h | h
    · rw [h, Nat.zero_mul] at hp
      omega
    · exact h
  unfold scanStep
  split_ifs with h1 h2 h3
  · exact hall
  · exact hall
  · have hb := floodLoop_bounds data width height bgR bgG bgB thr
      (insert p st.1) [p] (p % width) (p % width) (p / width) (p / width)
      (by
        intro m hm
        rw [List.mem_singleton] at hm
        subst hm
        rw [Nat.mul_comm]
        exact hp)
      le_rfl (Nat.mod_lt p hW) le_rfl
      (by rw [Nat.div_lt_iff_lt_mul hW]; exact hp)
    exact emitBox_inv width height st.2 _ hW hH hb.1 hb.2.1 hb.2.2.1 hb.2.2.2 hall
  · exact hall

theorem foldl_scanStep_inv (data : ℕ → ℕ) (width height bgR bgG bgB : ℕ) (thr : ℚ) :
    ∀ (l : List ℕ), (∀ p ∈ l, p < height * width) →
      ∀ (st : Finset ℕ × List BoundingBox),
        (∀ b ∈ st.2, boxInv width height b) →
        ∀ b ∈ (l.foldl (scanStep data width height bgR bgG bgB thr) st).2,
          boxInv width height b := by
  intro l
  induction l with
  | nil =>
    intro _ st hst
    simpa using hst
  | cons p ps ih =>
    intro hl st hst
    rw [List.foldl_cons]
    exact ih (fun q hq => hl q (List.mem_cons_of_mem p hq)) _
      (scanStep_inv data width height bgR bgG bgB thr st p (hl p (List.mem_cons_self p ps)) hst)

theorem scanBoxes_inv (data : ℕ → ℕ) (width height : ℕ) (threshold : ℚ) :
    ∀ b ∈ scanBoxes data width height threshold, boxInv width height b := by
  unfold scanBoxes
  exact foldl_scanStep_inv data width height (data 0) (data 1) (data 2) (max 10 threshold)
    (List.range (height * width)) (fun p hp => List.mem_range.1 hp) (∅, []) (by simp)

theorem rawRect_bounds (b : BoundingBox) (width height : ℕ)
    (hW : 0 < width) (hH : 0 < height) (hb : boxInv width height b) :
    (rawRect b width height).1 ≤ (rawRect b width height).2.2.1 ∧
    (rawRect b width height).2.2.1 ≤ width - 1 ∧
    (rawRect b width height).2.1 ≤ (rawRect b width height).2.2.2 ∧
    (rawRect b width height).2.2.2 ≤ height - 1 := by
  obtain ⟨h1, h2, h3, h4, h5, h6⟩ := hb
  unfold rawRect
  refine ⟨?_, min_le_left _ _, ?_, min_le_left _ _⟩
  · refine le_min ?_ ?_
    · have hfl : ⌊b.x * (width : ℚ)⌋ ≤ ((width - 1 : ℕ) : ℤ) := by
        have := Int.floor_mono h5
        rwa [Int.floor_natCast] at this
      have := Int.toNat_le_toNat hfl
      rwa [Int.toNat_natCast] at this
    · apply Int.toNat_le_toNat
      apply Int.floor_mono
      exact mul_le_mul_of_nonneg_right (by linarith) (by positivity)
  · refine le_min ?_ ?_
    · have hfl : ⌊b.y * (height : ℚ)⌋ ≤ ((height - 1 : ℕ) : ℤ) := by
        have := Int.floor_mono h6
        rwa [Int.floor_natCast] at this
      have := Int.toNat_le_toNat hfl
      rwa [Int.toNat_natCast] at this
    · apply Int.toNat_le_toNat
      apply Int.floor_mono
      exact mul_le_mul_of_nonneg_right (by linarith) (by positivity)

theorem mem_foldl_append {α β : Type} (f : β → List α) :
    ∀ (l : List β) (init : List α) (r : α),
      r ∈ l.foldl (fun acc b => acc ++ f b) init → r ∈ init ∨ ∃ b ∈ l, r ∈ f b := by
  intro l
  induction l with
  | nil =>
    intro init r hr
    exact Or.inl hr
  | cons b bs ih =>
    intro init r hr
    rw [List.foldl_cons] at hr
    rcases ih (init ++ f b) r hr with h | ⟨c, hc1, hc2⟩
    · rcases List.mem_append.1 h with h | h
      · exact Or.inl h
      · exact Or.inr ⟨b, List.mem_cons_self b bs, h⟩
    · exact Or.inr ⟨c, List.mem_cons_of_mem b hc1, hc2⟩

theorem regionOfRect_inUnit (a b c d width height : ℕ)
    (hac : a ≤ c) (hc : c ≤ width - 1) (hbd : b ≤ d) (hd : d ≤ height - 1)
    (hW : 0 < width) (hH : 0 < height) :
    inUnit (regionOfRect a b c d width height) = true := by
  simp only [regionOfRect, inUnit, Bool.and_eq_true, decide_eq_true_eq]
  refine ⟨⟨⟨by positivity, by positivity⟩, ?_⟩, ?_⟩
  · have hsum : (a : ℚ) / (width : ℚ) + ((c - a : ℕ) : ℚ) / (width : ℚ)
        = (c : ℚ) / (width : ℚ) := by
      rw [Nat.cast_sub hac, div_add_div_same]
      congr 1
      ring
    rw [hsum, div_le_one (by exact_mod_cast hW)]
    exact_mod_cast (by omega : c ≤ width)
  · have hsum : (b : ℚ) / (height : ℚ) + ((d - b : ℕ) : ℚ) / (height : ℚ)
        = (d : ℚ) / (height : ℚ) := by
      rw [Nat.cast_sub hbd, div_add_div_same]
      congr 1
      ring
    rw [hsum, div_le_one (by exact_mod_cast hH)]
    exact_mod_cast (by omega : d ≤ height)

theorem scanBoxes_degenerate (data : ℕ → ℕ) (width height : ℕ) (threshold : ℚ)
    (hd : width = 0 ∨ height = 0) : scanBoxes data width height threshold = [] := by
  unfold scanBoxes
  rcases hd with h0 | h0 <;> rw [h0] <;> simp

theorem scanForSpritesCore_degenerate (data : ℕ → ℕ) (width height : ℕ) (threshold : ℚ)
    (hd : width = 0 ∨ height = 0) : scanForSpritesCore data width height threshold = [] := by
  unfold scanForSpritesCore
  rw [scanBoxes_degenerate data width height threshold hd, mergeOverlappingBoxes_nil]
  rfl

theorem normalizeRawBox_inUnit (b : RawBox) (sf : ℚ) (r : Region)
    (h : normalizeRawBox b sf = some r) : inUnit r = true := by
  have key : ∀ xm ym xM yM : ℚ,
      inUnit ⟨max 0 (min 1 xm), max 0 (min 1 ym),
        max 0 (min (1 - max 0 (min 1 xm)) (xM - xm)),
        max 0 (min (1 - max 0 (min 1 ym)) (yM - ym))⟩ = true := by
    intro xm ym xM yM
    simp only [inUnit, Bool.and_eq_true, decide_eq_true_eq]
    refine ⟨⟨⟨le_max_left _ _, le_max_left _ _⟩, ?_⟩, ?_⟩
    · have hx1 : max 0 (min 1 xm) ≤ 1 := max_le (by norm_num) (min_le_left _ _)
      have hw : max 0 (min (1 - max 0 (min 1 xm)) (xM - xm)) ≤ 1 - max 0 (min 1 xm) :=
        max_le (by linarith) (min_le_left _ _)
      linarith
    · have hy1 : max 0 (min 1 ym) ≤ 1 := max_le (by norm_num) (min_le_left _ _)
      have hh : max 0 (min (1 - max 0 (min 1 ym)) (yM - ym)) ≤ 1 - max 0 (min 1 ym) :=
        max_le (by linarith) (min_le_left _ _)
      linarith
  cases b with
  | arr vs =>
    by_cases hlen : 4 ≤ vs.length
    · simp only [normalizeRawBox, if_pos hlen, Option.some.injEq] at h
      rw [← h]
      exact key _ _ _ _
    · simp only [normalizeRawBox, if_neg hlen] at h
      exact absurd h (by simp)
  | obj ymin xmin ymax xmax =>
    simp only [normalizeRawBox, Option.some.injEq] at h
    rw [← h]
    exact key _ _ _ _

/-- C1: every Region produced by the core is inside the unit square:
for any pixel buffer, dimensions and threshold, every output of the
scanner pipeline (`scanForSprites`: flood-fill scan, merge, split)
satisfies `0 ≤ x`, `0 ≤ y`, `x + width ≤ 1` and `y + height ≤ 1`, and
so does every output of the recognizer normalization (`detectSegments`)
on any parsed box list and image dimensions — in exact rational
arithmetic, so with no tolerance needed. -/
theorem core_outputs_in_unit_square :
    (∀ (data : ℕ → ℕ) (width height : ℕ) (threshold : ℚ),
        (scanForSpritesCore data width height threshold).all inUnit = true) ∧
    (∀ (boxes : List RawBox) (imgW imgH : ℕ),
        (detectedBoxes boxes imgW imgH).all inUnit = true) := by
  constructor
  · intro data width height threshold
    rw [List.all_eq_true]
    intro r hr
    rcases Nat.eq_zero_or_pos width with hW | hW
    · rw [scanForSpritesCore_degenerate data width height threshold (Or.inl hW)] at hr
      exact absurd hr (List.not_mem_nil r)
    rcases Nat.eq_zero_or_pos height with hH | hH
    · rw [scanForSpritesCore_degenerate data width height threshold (Or.inr hH)] at hr
      exact absurd hr (List.not_mem_nil r)
    unfold scanForSpritesCore at hr
    rcases mem_foldl_append _ _ _ r hr with h | ⟨b, hb1, hb2⟩
    · exact absurd h (List.not_mem_nil r)
    · have hbinv : boxInv width height b :=
        mergeOverlappingBoxes_preserves (boxInv width height)
          (mergeTwoBoxes_inv width height) _ (scanBoxes_inv data width height threshold) b hb1
      obtain ⟨hr1, hr2, hr3, hr4⟩ := rawRect_bounds b width height hW hH hbinv
      obtain ⟨a, b', c, d, g1, g2, g3, g4, g5, g6, g7⟩ :=
        splitBox_mem_bounds
          ((rawRect b width height).2.2.2 - (rawRect b width height).2.1
            + ((rawRect b width height).2.2.1 - (rawRect b width height).1))
          (rawRect b width height).1 (rawRect b width height).2.1
          (rawRect b width height).2.2.1 (rawRect b width height).2.2.2
          data width height (data 0) (data 1) (data 2) (max 10 threshold) r
          le_rfl hr1 hr3 hb2
      rw [g7]
      exact regionOfRect_inUnit a b' c d width height g2 (le_trans g3 hr2)
        g5 (le_trans g6 hr4) hW hH
  · intro boxes imgW imgH
    rw [List.all_eq_true]
    intro r hr
    unfold detectedBoxes at hr
    obtain ⟨b, hb1, hb2⟩ := List.mem_filterMap.1 (List.mem_filter.1 hr).1
    exact normalizeRawBox_inUnit b (scaleFactorOf boxes imgW imgH) r hb2

/-! ## BatchOrchestrator (`App.tsx`, `processQueue` / `processFile`)

Round-based queue processing: each loop iteration snapshots the jobs
whose status is still `queued`, dispatches up to `concurrency` of them,
and awaits the whole batch before the next snapshot.  Each dispatched
job is first marked `processing`; when its detection settles, the
result is committed unless the cancel flag was raised in the meantime,
in which case the job is left as it stands.  Cancellation is modelled
by the admissible schedule in which the flag is raised during round `r`
after the first `k` jobs of that round's batch have committed: the
remaining batch jobs observe the flag at their commit check and are
discarded, and the loop's next top-of-iteration check breaks. -/

/-- Status of a job in the queue (`ImageFile.status`). -/
inductive JobStatus where
  | queued
  | processing
  | done
  | error
deriving DecidableEq, Repr

/-- A job of the queue: id, status and (abstracted) slice payload. -/
structure Job where
  id : ℕ
  status : JobStatus
  slices : ℕ
deriving DecidableEq, Repr

/-- `updateFileAndDB`: update every job carrying the given id. -/
def updateJob (jobs : List Job) (i : ℕ) (f : Job → Job) : List Job :=
  jobs.map (fun j => if j.id = i then f j else j)

/-- The currently queued jobs (the loop's snapshot filter). -/
def queuedOf (jobs : List Job) : List Job :=
  jobs.filter (fun j => decide (j.status = JobStatus.queued))

/-- Outcome committed for batch job `j` on top of the current record
`cur`: `done` with the detected slices on success, `error` keeping the
snapshot's slices on failure (`processAiDetect` / `processScanDetect`
spread the snapshot on error). -/
def applyDetect (detect : ℕ → Option ℕ) (j cur : Job) : Job :=
  match detect j.id with
  | some s => { cur with status := JobStatus.done, slices := s }
  | none => { cur with status := JobStatus.error, slices := j.slices }

/-- Commit of one settled batch job (`processFile`'s final update). -/
def commitJob (detect : ℕ → Option ℕ) (jobs : List Job) (j : Job) : List Job :=
  updateJob jobs j.id (applyDetect detect j)

/-- Start of a round: every batch job is marked `processing`. -/
def markProcessing (jobs : List Job) (batch : List Job) : List Job :=
  batch.foldl
    (fun js j => updateJob js j.id (fun cur => { cur with status := JobStatus.processing }))
    jobs

/-- One round over `batch`: all batch jobs are marked `processing`
(each `processFile` reaches its first update before any completes),
then the first `cutoff` of them commit; the rest observe the cancel
flag at their commit check and are discarded. -/
def runRound (detect : ℕ → Option ℕ) (jobs : List Job) (batch : List Job) (cutoff : ℕ) :
    List Job :=
  (batch.take cutoff).foldl (commitJob detect) (markProcessing jobs batch)

/-- Net effect of the mark pass on one job record. -/
def markStep (y j : Job) : Job :=
  if y.id = j.id then { y with status := JobStatus.processing } else y

/-- Net effect of one commit on one job record. -/
def commitStep (detect : ℕ → Option ℕ) (y j : Job) : Job :=
  if y.id = j.id then applyDetect detect j y else y

/-- Net per-record function of a whole round. -/
def roundFn (detect : ℕ → Option ℕ) (batch : List Job) (cutoff : ℕ) (x : Job) : Job :=
  (batch.take cutoff).foldl (commitStep detect) (batch.foldl markStep x)

theorem markProcessing_map : ∀ (batch jobs : List Job),
    markProcessing jobs batch = jobs.map (fun x => batch.foldl markStep x) := by
  intro batch
  induction batch with
  | nil =>
    intro jobs
    unfold markProcessing
    rw [List.foldl_nil]
    have h1 : (fun x : Job => List.foldl markStep x []) = fun x => x := by
      funext x
      rfl
    rw [h1]
    exact (List.map_id jobs).symm
  | cons j js ih =>
    intro jobs
    unfold markProcessing at ih ⊢
    rw [List.foldl_cons]
    rw [ih (updateJob jobs j.id (fun cur => { cur with status := JobStatus.processing }))]
    unfold updateJob
    rw [List.map_map]
    have h1 : ((fun x => List.foldl markStep x js) ∘
        (fun y => if y.id = j.id then { y with status := JobStatus.processing } else y))
        = fun x => List.foldl markStep x (j :: js) := by
      funext x
      show List.foldl markStep
          (if x.id = j.id then { x with status := JobStatus.processing } else x) js
          = List.foldl markStep x (j :: js)
      rw [List.foldl_cons]
      rfl
    rw [h1]

theorem commitFoldl_map (detect : ℕ → Option ℕ) : ∀ (l jobs : List Job),
    l.foldl (commitJob detect) jobs = jobs.map (fun x => l.foldl (commitStep detect) x) := by
  intro l
  induction l with
  | nil =>
    intro jobs
    rw [List.foldl_nil]
    have h1 : (fun x : Job => List.foldl (commitStep detect) x []) = fun x => x := by
      funext x
      rfl
    rw [h1]
    exact (List.map_id jobs).symm
  | cons j js ih =>
    intro jobs
    rw [List.foldl_cons, ih]
    unfold commitJob updateJob
    rw [List.map_map]
    have h1 : ((fun x => List.foldl (commitStep detect) x js) ∘
        (fun y => if y.id = j.id then applyDetect detect j y else y))
        = fun x => List.foldl (commitStep detect) x (j :: js) := by
      funext x
      show List.foldl (commitStep detect)
          (if x.id = j.id then applyDetect detect j x else x) js
          = List.foldl (commitStep detect) x (j :: js)
      rw [List.foldl_cons]
      rfl
    rw [h1]

theorem runRound_map (detect : ℕ → Option ℕ) (jobs batch : List Job) (cutoff : ℕ) :
    runRound detect jobs batch cutoff = jobs.map (roundFn detect batch cutoff) := by
  unfold runRound roundFn
  rw [commitFoldl_map detect (batch.take cutoff) (markProcessing jobs batch),
    markProcessing_map batch jobs, List.map_map]
  rfl

theorem applyDetect_id (detect : ℕ → Option ℕ) (j cur : Job) :
    (applyDetect detect j cur).id = cur.id := by
  unfold applyDetect
  cases detect j.id <;> rfl

theorem foldl_markStep_id : ∀ (l : List Job) (x : Job), (l.foldl markStep x).id = x.id := by
  intro l
  induction l with
  | nil => intro x; rfl
  | cons j js ih =>
    intro x
    rw [List.foldl_cons, ih]
    unfold markStep
    split_ifs <;> rfl

theorem foldl_commitStep_id (detect : ℕ → Option ℕ) :
    ∀ (l : List Job) (x : Job), (l.foldl (commitStep detect) x).id = x.id := by
  intro l
  induction l with
  | nil => intro x; rfl
  | cons j js ih =>
    intro x
    rw [List.foldl_cons, ih]
    unfold commitStep
    split_ifs with h
    · exact applyDetect_id detect j x
    · rfl

theorem roundFn_id (detect : ℕ → Option ℕ) (batch : List Job) (cutoff : ℕ) (x : Job) :
    (roundFn detect batch cutoff x).id = x.id := by
  unfold roundFn
  rw [foldl_commitStep_id, foldl_markStep_id]

theorem foldl_markStep_untouched : ∀ (l : List Job) (x : Job),
    (∀ j ∈ l, x.id ≠ j.id) → l.foldl markStep x = x := by
  intro l
  induction l with
  | nil => intro x _; rfl
  | cons j js ih =>
    intro x hx
    rw [List.foldl_cons]
    have hs : markStep x j = x := by
      unfold markStep
      rw [if_neg (hx j (List.mem_cons_self j js))]
    rw [hs]
    exact ih x (fun j' hj' => hx j' (List.mem_cons_of_mem j hj'))

theorem foldl_commitStep_untouched (detect : ℕ → Option ℕ) : ∀ (l : List Job) (x : Job),
    (∀ j ∈ l, x.id ≠ j.id) → l.foldl (commitStep detect) x = x := by
  intro l
  induction l with
  | nil => intro x _; rfl
  | cons j js ih =>
    intro x hx
    rw [List.foldl_cons]
    have hs : commitStep detect x j = x := by
      unfold commitStep
      rw [if_neg (hx j (List.mem_cons_self j js))]
    rw [hs]
    exact ih x (fun j' hj' => hx j' (List.mem_cons_of_mem j hj'))

theorem roundFn_untouched (detect : ℕ → Option ℕ) (batch : List Job) (cutoff : ℕ) (x : Job)
    (hx : ∀ j ∈ batch, x.id ≠ j.id) : roundFn detect batch cutoff x = x := by
  unfold roundFn
  rw [foldl_markStep_untouched batch x hx,
    foldl_commitStep_untouched detect _ x (fun j hj => hx j (List.mem_of_mem_take hj))]

theorem foldl_markStep_mem : ∀ (l : List Job) (x : Job), (∃ j ∈ l, x.id = j.id) →
    l.foldl markStep x = { x with status := JobStatus.processing } := by
  intro l
  induction l with
  | nil =>
    intro x hx
    exact absurd hx (by simp)
  | cons j js ih =>
    intro x hx
    rw [List.foldl_cons]
    by_cases hj : x.id = j.id
    · have hs : markStep x j = { x with status := JobStatus.processing } := by
        unfold markStep
        rw [if_pos hj]
      rw [hs]
      by_cases hx2 : ∃ j' ∈ js, x.id = j'.id
      · exact ih { x with status := JobStatus.processing } hx2
      · push_neg at hx2
        exact foldl_markStep_untouched js _ (fun j' hj' => hx2 j' hj')
    · have hs : markStep x j = x := by
        unfold markStep
        rw [if_neg hj]
      rw [hs]
      apply ih
      rcases hx with ⟨j', hj', he⟩
      rcases List.mem_cons.1 hj' with h | h
      · exact absurd (h ▸ he) hj
      · exact ⟨j', h, he⟩

theorem applyDetect_status (detect : ℕ → Option ℕ) (j cur : Job) :
    (applyDetect detect j cur).status ≠ JobStatus.queued := by
  unfold applyDetect
  cases detect j.id <;> simp

theorem foldl_commitStep_status (detect : ℕ → Option ℕ) : ∀ (l : List Job) (x : Job),
    (l.foldl (commitStep detect) x).status = JobStatus.queued →
    x.status = JobStatus.queued := by
  intro l
  induction l with
  | nil => intro x h; exact h
  | cons j js ih =>
    intro x h
    rw [List.foldl_cons] at h
    have h2 := ih _ h
    unfold commitStep at h2
    split_ifs at h2 with hid
    · exact absurd h2 (applyDetect_status detect j x)
    · exact h2

theorem roundFn_status_ne (detect : ℕ → Option ℕ) (batch : List Job) (cutoff : ℕ) (x : Job)
    (hx : ∃ j ∈ batch, x.id = j.id) :
    (roundFn detect batch cutoff x).status ≠ JobStatus.queued := by
  intro h
  unfold roundFn at h
  have h2 := foldl_commitStep_status detect _ _ h
  rw [foldl_markStep_mem batch x hx] at h2
  simp at h2

theorem roundFn_queued (detect : ℕ → Option ℕ) (batch : List Job) (cutoff : ℕ) (x : Job)
    (h : (roundFn detect batch cutoff x).status = JobStatus.queued) :
    x.status = JobStatus.queued := by
  by_cases hx : ∃ j ∈ batch, x.id = j.id
  · exact absurd h (roundFn_status_ne detect batch cutoff x hx)
  · push_neg at hx
    rw [roundFn_untouched detect batch cutoff x hx] at h
    exact h

theorem applyDetect_congr (detect : ℕ → Option ℕ) (j cur cur' : Job)
    (h : cur.id = cur'.id) : applyDetect detect j cur = applyDetect detect j cur' := by
  unfold applyDetect
  cases detect j.id with
  | some s =>
    show ({ cur with status := JobStatus.done, slices := s } : Job)
        = { cur' with status := JobStatus.done, slices := s }
    rw [Job.mk.injEq]
    exact ⟨h, rfl, rfl⟩
  | none =>
    show ({ cur with status := JobStatus.error, slices := j.slices } : Job)
        = { cur' with status := JobStatus.error, slices := j.slices }
    rw [Job.mk.injEq]
    exact ⟨h, rfl, rfl⟩

theorem foldl_commitStep_of_mem (detect : ℕ → Option ℕ) :
    ∀ (l : List Job) (x j : Job), j ∈ l → x.id = j.id →
      (∀ j' ∈ l, j'.id = j.id → j' = j) →
      l.foldl (commitStep detect) x = applyDetect detect j x := by
  intro l
  induction l with
  | nil =>
    intro x j hj
    exact absurd hj (List.not_mem_nil j)
  | cons a as ih =>
    intro x j hj hxj hinj
    rw [List.foldl_cons]
    by_cases hax : x.id = a.id
    · have ha : a = j := hinj a (List.mem_cons_self a as) (by rw [← hax, hxj])
      subst ha
      have hs : commitStep detect x a = applyDetect detect a x := by
        unfold commitStep
        rw [if_pos hax]
      rw [hs]
      by_cases hjs : a ∈ as
      · rw [ih (applyDetect detect a x) a hjs (by rw [applyDetect_id, hxj])
          (fun j' hj' he => hinj j' (List.mem_cons_of_mem a hj') he)]
        exact applyDetect_congr detect a _ x (applyDetect_id detect a x)
      · rw [foldl_commitStep_untouched detect as (applyDetect detect a x) ?_]
        intro j' hj' he
        have he2 : j'.id = a.id := by rw [← he, applyDetect_id, hxj]
        have := hinj j' (List.mem_cons_of_mem a hj') he2
        rw [this] at hj'
        exact hjs hj'
    · have hs : commitStep detect x a = x := by
        unfold commitStep
        rw [if_neg hax]
      rw [hs]
      have haj : a ≠ j := fun he => hax (by rw [hxj, he])
      have hj2 : j ∈ as := by
        rcases List.mem_cons.1 hj with he | h
        · exact absurd he.symm haj
        · exact h
      exact ih x j hj2 hxj (fun j' h1 h2 => hinj j' (List.mem_cons_of_mem a h1) h2)

theorem roundFn_commit (detect : ℕ → Option ℕ) (batch : List Job) (cutoff : ℕ) (j : Job)
    (hj : j ∈ batch.take cutoff)
    (hinj : ∀ j1 ∈ batch, ∀ j2 ∈ batch, j1.id = j2.id → j1 = j2) :
    roundFn detect batch cutoff j = applyDetect detect j j := by
  unfold roundFn
  have hjb : j ∈ batch := List.mem_of_mem_take hj
  rw [foldl_markStep_mem batch j ⟨j, hjb, rfl⟩]
  rw [foldl_commitStep_of_mem detect (batch.take cutoff)
    { j with status := JobStatus.processing } j hj rfl
    (fun j' h1 h2 => hinj j' (List.mem_of_mem_take h1) j hjb h2)]
  exact applyDetect_congr detect j _ j rfl

theorem runRound_ids (detect : ℕ → Option ℕ) (jobs batch : List Job) (cutoff : ℕ) :
    (runRound detect jobs batch cutoff).map Job.id = jobs.map Job.id := by
  rw [runRound_map, List.map_map]
  exact List.map_congr_left (fun x _ => roundFn_id detect batch cutoff x)

theorem runRound_mem_untouched (detect : ℕ → Option ℕ) (jobs batch : List Job) (cutoff : ℕ)
    (x : Job) (hx : x ∈ jobs) (h : ∀ j ∈ batch, x.id ≠ j.id) :
    x ∈ runRound detect jobs batch cutoff := by
  rw [runRound_map]
  have hm := List.mem_map_of_mem (roundFn detect batch cutoff) hx
  rwa [roundFn_untouched detect batch cutoff x h] at hm

theorem queuedOf_map_length (g : Job → Job) (jobs : List Job) :
    (queuedOf (jobs.map g)).length
      = jobs.countP (fun x => decide ((g x).status = JobStatus.queued)) := by
  unfold queuedOf
  rw [List.filter_map, List.length_map]
  exact (List.countP_eq_length_filter _ _).symm

theorem queued_runRound_lt (detect : ℕ → Option ℕ) (jobs : List Job) (c cutoff : ℕ)
    (hc : 0 < c) (hne : queuedOf jobs ≠ []) :
    (queuedOf (runRound detect jobs ((queuedOf jobs).take c) cutoff)).length
      < (queuedOf jobs).length := by
  rw [runRound_map, queuedOf_map_length]
  have hq0 : (queuedOf jobs).length
      = jobs.countP (fun j => decide (j.status = JobStatus.queued)) := by
    unfold queuedOf
    exact (List.countP_eq_length_filter _ _).symm
  rw [hq0]
  obtain ⟨j0, l0, hql⟩ := List.exists_cons_of_ne_nil hne
  have hj0q : j0 ∈ queuedOf jobs := by
    rw [hql]
    exact List.mem_cons_self j0 l0
  have hj0 : j0 ∈ jobs := (List.mem_filter.1 hj0q).1
  have hj0s : j0.status = JobStatus.queued := of_decide_eq_true (List.mem_filter.1 hj0q).2
  have hj0b : j0 ∈ (queuedOf jobs).take c := by
    rw [hql]
    cases c with
    | zero => omega
    | succ c2 =>
      rw [List.take_succ_cons]
      exact List.mem_cons_self j0 _
  generalize (queuedOf jobs).take c = B at hj0b ⊢
  have hat1 : (decide ((roundFn detect B cutoff j0).status = JobStatus.queued)) = false :=
    decide_eq_false (roundFn_status_ne detect B cutoff j0 ⟨j0, hj0b, rfl⟩)
  have hat2 : (decide (j0.status = JobStatus.queued)) = true := decide_eq_true hj0s
  have hmono1 : ∀ l : List Job,
      l.countP (fun x => decide ((roundFn detect B cutoff x).status = JobStatus.queued))
        ≤ l.countP (fun j => decide (j.status = JobStatus.queued)) := by
    intro l
    refine List.countP_mono_left ?_
    intro x _ hx
    exact decide_eq_true (roundFn_queued detect B cutoff x (of_decide_eq_true hx))
  obtain ⟨l1, l2, hsplit⟩ := List.append_of_mem hj0
  subst hsplit
  have hm1 := hmono1 l1
  have hm2 := hmono1 l2
  have e1 : (if (false : Bool) = true then (1 : ℕ) else 0) = 0 := by simp
  have e2 : (if (true : Bool) = true then (1 : ℕ) else 0) = 1 := by simp
  rw [List.countP_append, List.countP_append, List.countP_cons, List.countP_cons,
    hat1, hat2, e1, e2]
  omega

/-- Round sizes predicted for a queue of `n` jobs at concurrency `c`:
`min c n` per round until the queue is empty. -/
def chunkSizes (n c : ℕ) : List ℕ :=
  if n = 0 ∨ c = 0 then [] else min c n :: chunkSizes (n - min c n) c
termination_by n
decreasing_by
  push_neg at *
  rename_i h
  have h1 : 0 < min c n := lt_min (by omega) (by omega)
  omega

/-- The `while` loop of `processQueue`.  Each iteration snapshots the
queued jobs, takes the first `concurrency` of them as the round's
batch, and runs the round to completion before the next snapshot.
`cancel = some (r, k)` means the cancel flag is raised during round `r`
(counting from the current iteration) after `k` of its batch jobs have
committed; the loop then breaks at its next top-of-iteration check.
`cancel = none` runs until no queued jobs remain.  Returns the final
job list together with the sizes of the dispatched batches. -/
def runQueue (detect : ℕ → Option ℕ) (c : ℕ) (hc : 0 < c) (cancel : Option (ℕ × ℕ))
    (jobs : List Job) : List Job × List ℕ :=
  if hq : queuedOf jobs = [] then (jobs, [])
  else
    match cancel with
    | some (0, k) =>
      (runRound detect jobs ((queuedOf jobs).take c) k, [((queuedOf jobs).take c).length])
    | some (r + 1, k) =>
      ((runQueue detect c hc (some (r, k))
          (runRound detect jobs ((queuedOf jobs).take c) ((queuedOf jobs).take c).length)).1,
        ((queuedOf jobs).take c).length ::
          (runQueue detect c hc (some (r, k))
            (runRound detect jobs ((queuedOf jobs).take c) ((queuedOf jobs).take c).length)).2)
    | none =>
      ((runQueue detect c hc none
          (runRound detect jobs ((queuedOf jobs).take c) ((queuedOf jobs).take c).length)).1,
        ((queuedOf jobs).take c).length ::
          (runQueue detect c hc none
            (runRound detect jobs ((queuedOf jobs).take c) ((queuedOf jobs).take c).length)).2)
termination_by (queuedOf jobs).length
decreasing_by
  all_goals exact queued_runRound_lt detect jobs c ((queuedOf jobs).take c).length hc hq

theorem runQueue_empty (detect : ℕ → Option ℕ) (c : ℕ) (hc : 0 < c)
    (cancel : Option (ℕ × ℕ)) (jobs : List Job) (hq : queuedOf jobs = []) :
    runQueue detect c hc cancel jobs = (jobs, []) := by
  rw [runQueue.eq_def, dif_pos hq]

theorem runQueue_cancelNow (detect : ℕ → Option ℕ) (c : ℕ) (hc : 0 < c) (k : ℕ)
    (jobs : List Job) (hq : queuedOf jobs ≠ []) :
    runQueue detect c hc (some (0, k)) jobs
      = (runRound detect jobs ((queuedOf jobs).take c) k,
         [((queuedOf jobs).take c).length]) := by
  rw [runQueue.eq_def, dif_neg hq]

theorem runQueue_cancelLater (detect : ℕ → Option ℕ) (c : ℕ) (hc : 0 < c) (r k : ℕ)
    (jobs : List Job) (hq : queuedOf jobs ≠ []) :
    runQueue detect c hc (some (r + 1, k)) jobs
      = ((runQueue detect c hc (some (r, k))
            (runRound detect jobs ((queuedOf jobs).take c)
              ((queuedOf jobs).take c).length)).1,
         ((queuedOf jobs).take c).length ::
           (runQueue detect c hc (some (r, k))
             (runRound detect jobs ((queuedOf jobs).take c)
               ((queuedOf jobs).take c).length)).2) := by
  rw [runQueue.eq_def, dif_neg hq]

theorem runQueue_noCancel (detect : ℕ → Option ℕ) (c : ℕ) (hc : 0 < c)
    (jobs : List Job) (hq : queuedOf jobs ≠ []) :
    runQueue detect c hc none jobs
      = ((runQueue detect c hc none
            (runRound detect jobs ((queuedOf jobs).take c)
              ((queuedOf jobs).take c).length)).1,
         ((queuedOf jobs).take c).length ::
           (runQueue detect c hc none
             (runRound detect jobs ((queuedOf jobs).take c)
               ((queuedOf jobs).take c).length)).2) := by
  rw [runQueue.eq_def, dif_neg hq]

theorem queued_runRound_count (detect : ℕ → Option ℕ) (jobs : List Job) (c cutoff : ℕ)
    (hnd : (jobs.map Job.id).Nodup) :
    (queuedOf (runRound detect jobs ((queuedOf jobs).take c) cutoff)).length
      = (queuedOf jobs).length - ((queuedOf jobs).take c).length := by
  rw [runRound_map, queuedOf_map_length]
  have hinj := List.inj_on_of_nodup_map hnd
  have hcongr : ∀ x ∈ jobs,
      (decide ((roundFn detect ((queuedOf jobs).take c) cutoff x).status = JobStatus.queued))
        = ((!decide (x.id ∈ ((queuedOf jobs).take c).map Job.id))
            && decide (x.status = JobStatus.queued)) := by
    intro x _
    by_cases hmem : ∃ j ∈ (queuedOf jobs).take c, x.id = j.id
    · have h1 := roundFn_status_ne detect _ cutoff x hmem
      obtain ⟨j, hj, he⟩ := hmem
      have h2 : x.id ∈ ((queuedOf jobs).take c).map Job.id :=
        List.mem_map.2 ⟨j, hj, he.symm⟩
      rw [decide_eq_false h1, decide_eq_true h2]
      rfl
    · push_neg at hmem
      have h1 : roundFn detect ((queuedOf jobs).take c) cutoff x = x :=
        roundFn_untouched detect _ cutoff x hmem
      have h2 : x.id ∉ ((queuedOf jobs).take c).map Job.id := by
        intro hm
        obtain ⟨j, hj, he⟩ := List.mem_map.1 hm
        exact hmem j hj he.symm
      rw [h1, decide_eq_false h2]
      rfl
  have hcongr2 : ∀ x ∈ jobs,
      ((decide ((roundFn detect ((queuedOf jobs).take c) cutoff x).status = JobStatus.queued))
          = true
        ↔ ((!decide (x.id ∈ ((queuedOf jobs).take c).map Job.id))
            && decide (x.status = JobStatus.queued)) = true) :=
    fun x hx => by rw [hcongr x hx]
  rw [List.countP_congr hcongr2, ← List.countP_filter]
  rw [show jobs.filter (fun j => decide (j.status = JobStatus.queued)) = queuedOf jobs from rfl]
  generalize hI : ((queuedOf jobs).take c).map Job.id = I
  conv_lhs => rw [← List.take_append_drop c (queuedOf jobs)]
  rw [List.countP_append]
  have hTake : ((queuedOf jobs).take c).countP (fun x => !decide (x.id ∈ I)) = 0 := by
    rw [List.countP_eq_zero]
    intro j hj hcontra
    have hji : j.id ∈ I := by
      rw [← hI]
      exact List.mem_map.2 ⟨j, hj, rfl⟩
    rw [decide_eq_true hji] at hcontra
    exact absurd hcontra (by simp)
  have hDrop : ((queuedOf jobs).drop c).countP (fun x => !decide (x.id ∈ I))
      = ((queuedOf jobs).drop c).length := by
    rw [List.countP_eq_length]
    intro x hxdrop
    have hxq : x ∈ queuedOf jobs := List.mem_of_mem_drop hxdrop
    have h2 : x.id ∉ I := by
      intro hm
      rw [← hI] at hm
      obtain ⟨j, hj, he⟩ := List.mem_map.1 hm
      have hjq : j ∈ queuedOf jobs := List.mem_of_mem_take hj
      have hjx : j = x := hinj (List.mem_filter.1 hjq).1 (List.mem_filter.1 hxq).1 he
      subst hjx
      have hndq : (queuedOf jobs).Nodup := (List.Nodup.of_map _ hnd).filter _
      exact (List.disjoint_take_drop hndq le_rfl) hj hxdrop
    rw [decide_eq_false h2]
    rfl
  rw [hTake, hDrop, List.length_drop, List.length_take]
  rcases Nat.le_total c (queuedOf jobs).length with h | h
  · rw [min_eq_left h]
    omega
  · rw [min_eq_right h]
    omega

theorem nonqueued_not_in_batch (jobs : List Job) (c : ℕ) (hnd : (jobs.map Job.id).Nodup)
    (x : Job) (hx : x ∈ jobs) (hxs : x.status ≠ JobStatus.queued) :
    ∀ j ∈ (queuedOf jobs).take c, x.id ≠ j.id := by
  intro j hj he
  have hjq : j ∈ queuedOf jobs := List.mem_of_mem_take hj
  have hjs : j.status = JobStatus.queued := of_decide_eq_true (List.mem_filter.1 hjq).2
  have hxj : x = j := List.inj_on_of_nodup_map hnd hx (List.mem_filter.1 hjq).1 he
  rw [hxj] at hxs
  exact hxs hjs

theorem runQueue_preserves_nonqueued (detect : ℕ → Option ℕ) (c : ℕ) (hc : 0 < c) :
    ∀ (cancel : Option (ℕ × ℕ)) (jobs : List Job), (jobs.map Job.id).Nodup →
      ∀ x ∈ jobs, x.status ≠ JobStatus.queued → x ∈ (runQueue detect c hc cancel jobs).1 := by
  intro cancel jobs
  induction cancel, jobs using runQueue.induct detect c hc with
  | case1 cancel jobs hq =>
    intro hnd x hx hxs
    rw [runQueue_empty detect c hc cancel jobs hq]
    exact hx
  | case2 jobs hq k =>
    intro hnd x hx hxs
    rw [runQueue_cancelNow detect c hc k jobs hq]
    show x ∈ runRound detect jobs ((queuedOf jobs).take c) k
    exact runRound_mem_untouched detect jobs _ k x hx
      (nonqueued_not_in_batch jobs c hnd x hx hxs)
  | case3 jobs hq r k ih =>
    intro hnd x hx hxs
    rw [runQueue_cancelLater detect c hc r k jobs hq]
    show x ∈ (runQueue detect c hc (some (r, k))
        (runRound detect jobs ((queuedOf jobs).take c) ((queuedOf jobs).take c).length)).1
    refine ih ?_ x ?_ hxs
    · rw [runRound_ids]
      exact hnd
    · exact runRound_mem_untouched detect jobs _ _ x hx
        (nonqueued_not_in_batch jobs c hnd x hx hxs)
  | case4 jobs hq ih =>
    intro hnd x hx hxs
    rw [runQueue_noCancel detect c hc jobs hq]
    show x ∈ (runQueue detect c hc none
        (runRound detect jobs ((queuedOf jobs).take c) ((queuedOf jobs).take c).length)).1
    refine ih ?_ x ?_ hxs
    · rw [runRound_ids]
      exact hnd
    · exact runRound_mem_untouched detect jobs _ _ x hx
        (nonqueued_not_in_batch jobs c hnd x hx hxs)

theorem runQueue_trace_none : ∀ (n : ℕ) (detect : ℕ → Option ℕ) (c : ℕ) (hc : 0 < c)
    (jobs : List Job), (queuedOf jobs).length ≤ n → (jobs.map Job.id).Nodup →
    (runQueue detect c hc none jobs).2 = chunkSizes (queuedOf jobs).length c := by
  intro n
  induction n with
  | zero =>
    intro detect c hc jobs hlen hnd
    have hq : queuedOf jobs = [] := List.length_eq_zero.1 (by omega)
    rw [runQueue_empty detect c hc none jobs hq, hq]
    rw [chunkSizes]
    simp
  | succ n ih =>
    intro detect c hc jobs hlen hnd
    by_cases hq : queuedOf jobs = []
    · rw [runQueue_empty detect c hc none jobs hq, hq]
      rw [chunkSizes]
      simp
    · have h0 : (queuedOf jobs).length ≠ 0 := fun h => hq (List.length_eq_zero.1 h)
      have hfull := queued_runRound_count detect jobs c ((queuedOf jobs).take c).length hnd
      have hnd2 : ((runRound detect jobs ((queuedOf jobs).take c)
          ((queuedOf jobs).take c).length).map Job.id).Nodup := by
        rw [runRound_ids]
        exact hnd
      have hlen2 : (queuedOf (runRound detect jobs ((queuedOf jobs).take c)
          ((queuedOf jobs).take c).length)).length ≤ n := by
        rw [hfull, List.length_take]
        have h1 : 0 < min c (queuedOf jobs).length := lt_min hc (by omega)
        omega
      have hrec := ih detect c hc _ hlen2 hnd2
      rw [runQueue_noCancel detect c hc jobs hq]
      show ((queuedOf jobs).take c).length ::
          (runQueue detect c hc none (runRound detect jobs ((queuedOf jobs).take c)
            ((queuedOf jobs).take c).length)).2
          = chunkSizes (queuedOf jobs).length c
      rw [hrec, hfull, List.length_take]
      conv_rhs => rw [chunkSizes]
      rw [if_neg (by push_neg; exact ⟨h0, by omega⟩)]

/-- C7 counterexample: two queued jobs, concurrency 2, cancellation
raised during the first (and only) round after one job has committed.
The claim says the in-flight round's results are discarded and
statuses reflect only fully completed prior rounds (here: none), but
the run commits job 0 as `done` with its detected slices, and leaves
job 1 stuck as `processing` rather than restoring it to `queued`. -/
theorem processQueue_cancel_partial_commit :
    (runQueue (fun _ => some 7) 2 two_pos (some (0, 1))
        [⟨0, JobStatus.queued, 0⟩, ⟨1, JobStatus.queued, 0⟩]).1
      = [⟨0, JobStatus.done, 7⟩, ⟨1, JobStatus.processing, 0⟩] ∧
    ¬ ∀ j ∈ (runQueue (fun _ => some 7) 2 two_pos (some (0, 1))
        [⟨0, JobStatus.queued, 0⟩, ⟨1, JobStatus.queued, 0⟩]).1,
      j.status = JobStatus.queued := by
  constructor
  · rw [runQueue_cancelNow _ _ _ _ _ (by with_unfolding_all decide)]
    with_unfolding_all decide
  · rw [runQueue_cancelNow _ _ _ _ _ (by with_unfolding_all decide)]
    with_unfolding_all decide

/-- C7 amended: when the cancel flag is raised while a round is in
flight (after `k` of its batch jobs have settled), the results of
those `k` jobs ARE committed — the round is not discarded wholesale:
(1) the run stops after that round, whose batch is the first
`concurrency` queued jobs; (2) each of the first `k` batch jobs ends
committed with its detection outcome (`done` with new slices, or
`error` keeping its old slices); (3) each remaining batch job is left
stuck as `processing`, neither committed nor restored to `queued`;
(4) jobs whose id is outside the batch are untouched.  Moreover
(5) jobs already out of `queued` status — in particular those
committed by fully completed earlier rounds — persist unchanged
through any run, and (6) before the cancel round, each iteration runs
one full round and decrements the cancel counter, so prior rounds
commit completely. -/
theorem processQueue_cancellation :
    (∀ (detect : ℕ → Option ℕ) (c : ℕ) (hc : 0 < c) (k : ℕ) (jobs : List Job),
      (jobs.map Job.id).Nodup → queuedOf jobs ≠ [] →
      ((runQueue detect c hc (some (0, k)) jobs).2 = [((queuedOf jobs).take c).length] ∧
       (∀ j ∈ ((queuedOf jobs).take c).take k,
         applyDetect detect j j ∈ (runQueue detect c hc (some (0, k)) jobs).1) ∧
       (∀ j ∈ ((queuedOf jobs).take c).drop k,
         ({ j with status := JobStatus.processing } : Job)
           ∈ (runQueue detect c hc (some (0, k)) jobs).1) ∧
       (∀ x ∈ jobs, x.id ∉ ((queuedOf jobs).take c).map Job.id →
         x ∈ (runQueue detect c hc (some (0, k)) jobs).1))) ∧
    (∀ (detect : ℕ → Option ℕ) (c : ℕ) (hc : 0 < c) (cancel : Option (ℕ × ℕ))
        (jobs : List Job), (jobs.map Job.id).Nodup →
      ∀ x ∈ jobs, x.status ≠ JobStatus.queued →
        x ∈ (runQueue detect c hc cancel jobs).1) ∧
    (∀ (detect : ℕ → Option ℕ) (c : ℕ) (hc : 0 < c) (r k : ℕ) (jobs : List Job),
      queuedOf jobs ≠ [] →
      runQueue detect c hc (some (r + 1, k)) jobs
        = ((runQueue detect c hc (some (r, k))
              (runRound detect jobs ((queuedOf jobs).take c)
                ((queuedOf jobs).take c).length)).1,
           ((queuedOf jobs).take c).length ::
             (runQueue detect c hc (some (r, k))
               (runRound detect jobs ((queuedOf jobs).take c)
                 ((queuedOf jobs).take c).length)).2)) := by
  refine ⟨?_, ?_, ?_⟩
  · intro detect c hc k jobs hnd hq
    have hinj : ∀ j1 ∈ (queuedOf jobs).take c, ∀ j2 ∈ (queuedOf jobs).take c,
        j1.id = j2.id → j1 = j2 := by
      intro j1 h1 j2 h2 he
      exact List.inj_on_of_nodup_map hnd
        (List.mem_filter.1 (List.mem_of_mem_take h1)).1
        (List.mem_filter.1 (List.mem_of_mem_take h2)).1 he
    refine ⟨?_, ?_, ?_, ?_⟩
    · rw [runQueue_cancelNow detect c hc k jobs hq]
    · intro j hj
      rw [runQueue_cancelNow detect c hc k jobs hq]
      show applyDetect detect j j ∈ runRound detect jobs ((queuedOf jobs).take c) k
      rw [runRound_map]
      have hjjobs : j ∈ jobs :=
        (List.mem_filter.1 (List.mem_of_mem_take (List.mem_of_mem_take hj))).1
      have hm := List.mem_map_of_mem (roundFn detect ((queuedOf jobs).take c) k) hjjobs
      rwa [roundFn_commit detect ((queuedOf jobs).take c) k j hj hinj] at hm
    · intro j hj
      rw [runQueue_cancelNow detect c hc k jobs hq]
      show ({ j with status := JobStatus.processing } : Job)
          ∈ runRound detect jobs ((queuedOf jobs).take c) k
      rw [runRound_map]
      have hjbatch : j ∈ (queuedOf jobs).take c := List.mem_of_mem_drop hj
      have hjjobs : j ∈ jobs := (List.mem_filter.1 (List.mem_of_mem_take hjbatch)).1
      have hm := List.mem_map_of_mem (roundFn detect ((queuedOf jobs).take c) k) hjjobs
      have hndb : ((queuedOf jobs).take c).Nodup :=
        List.Nodup.sublist (List.take_sublist c _) ((List.Nodup.of_map _ hnd).filter _)
      have hfn : roundFn detect ((queuedOf jobs).take c) k j
          = { j with status := JobStatus.processing } := by
        unfold roundFn
        rw [foldl_markStep_mem _ j ⟨j, hjbatch, rfl⟩]
        refine foldl_commitStep_untouched detect _ _ ?_
        intro j2 hj2 he
        have hj2batch : j2 ∈ (queuedOf jobs).take c := List.mem_of_mem_take hj2
        have : j = j2 := hinj j hjbatch j2 hj2batch he
        subst this
        exact (List.disjoint_take_drop hndb le_rfl) hj2 hj
      rwa [hfn] at hm
    · intro x hx hxid
      rw [runQueue_cancelNow detect c hc k jobs hq]
      show x ∈ runRound detect jobs ((queuedOf jobs).take c) k
      refine runRound_mem_untouched detect jobs _ k x hx ?_
      intro j hj he
      exact hxid (List.mem_map.2 ⟨j, hj, he.symm⟩)
  · intro detect c hc cancel jobs hnd
    exact runQueue_preserves_nonqueued detect c hc cancel jobs hnd
  · intro detect c hc r k jobs hq
    exact runQueue_cancelLater detect c hc r k jobs hq

/-- C7 witness: the amended cancellation semantics at a concrete run —
two queued jobs, concurrency 2, cancel after 1 commit: job 0's result
is committed, job 1 is left `processing`. -/
theorem processQueue_cancellation_witness :
    (([⟨0, JobStatus.queued, 0⟩, ⟨1, JobStatus.queued, 0⟩] : List Job).map Job.id).Nodup ∧
    queuedOf [⟨0, JobStatus.queued, 0⟩, ⟨1, JobStatus.queued, 0⟩] ≠ [] ∧
    (⟨0, JobStatus.done, 7⟩ : Job)
      ∈ (runQueue (fun _ => some 7) 2 two_pos (some (0, 1))
          [⟨0, JobStatus.queued, 0⟩, ⟨1, JobStatus.queued, 0⟩]).1 ∧
    (⟨1, JobStatus.processing, 0⟩ : Job)
      ∈ (runQueue (fun _ => some 7) 2 two_pos (some (0, 1))
          [⟨0, JobStatus.queued, 0⟩, ⟨1, JobStatus.queued, 0⟩]).1 := by
  refine ⟨by with_unfolding_all decide, by with_unfolding_all decide, ?_, ?_⟩
  · have h := (processQueue_cancellation.1 (fun _ => some 7) 2 two_pos 1
      [⟨0, JobStatus.queued, 0⟩, ⟨1, JobStatus.queued, 0⟩]
      (by with_unfolding_all decide) (by with_unfolding_all decide)).2.1
      ⟨0, JobStatus.queued, 0⟩ (by with_unfolding_all decide)
    have e : applyDetect (fun _ => some 7) (⟨0, JobStatus.queued, 0⟩ : Job)
        ⟨0, JobStatus.queued, 0⟩ = ⟨0, JobStatus.done, 7⟩ := by
      with_unfolding_all decide
    rwa [e] at h
  · have h := (processQueue_cancellation.1 (fun _ => some 7) 2 two_pos 1
      [⟨0, JobStatus.queued, 0⟩, ⟨1, JobStatus.queued, 0⟩]
      (by with_unfolding_all decide) (by with_unfolding_all decide)).2.2.1
      ⟨1, JobStatus.queued, 0⟩ (by with_unfolding_all decide)
    have e : ({ (⟨1, JobStatus.queued, 0⟩ : Job) with status := JobStatus.processing } : Job)
        = ⟨1, JobStatus.processing, 0⟩ := by
      with_unfolding_all decide
    rwa [e] at h

/-- C8: round-based dispatch — each iteration of `processQueue` takes
the first `concurrency` currently-queued jobs, marks them `processing`,
and awaits the entire batch before the next queue snapshot, so with
distinct job ids the dispatched round sizes are `min concurrency
remaining` until the queue empties; in particular 5 queued jobs at
concurrency 2 dispatch in exactly 3 rounds of sizes 2, 2, 1. -/
theorem processQueue_round_dispatch :
    (∀ (detect : ℕ → Option ℕ) (c : ℕ) (hc : 0 < c) (jobs : List Job),
        (jobs.map Job.id).Nodup →
        (runQueue detect c hc none jobs).2 = chunkSizes (queuedOf jobs).length c) ∧
    chunkSizes 5 2 = [2, 2, 1] := by
  constructor
  · intro detect c hc jobs hnd
    exact runQueue_trace_none (queuedOf jobs).length detect c hc jobs le_rfl hnd
  · have e3 : chunkSizes 1 2 = [1] := by
      rw [chunkSizes]
      norm_num
      rw [chunkSizes]
      norm_num
    have e2 : chunkSizes 3 2 = [2, 1] := by
      rw [chunkSizes]
      norm_num
      exact e3
    rw [chunkSizes]
    norm_num
    exact e2

/-- C8 witness: five queued jobs at concurrency 2 dispatch in rounds
of sizes 2, 2, 1. -/
theorem processQueue_round_dispatch_witness :
    (([⟨0, JobStatus.queued, 0⟩, ⟨1, JobStatus.queued, 0⟩, ⟨2, JobStatus.queued, 0⟩,
        ⟨3, JobStatus.queued, 0⟩, ⟨4, JobStatus.queued, 0⟩] : List Job).map Job.id).Nodup ∧
    (runQueue (fun _ => some 0) 2 two_pos none
        [⟨0, JobStatus.queued, 0⟩, ⟨1, JobStatus.queued, 0⟩, ⟨2, JobStatus.queued, 0⟩,
          ⟨3, JobStatus.queued, 0⟩, ⟨4, JobStatus.queued, 0⟩]).2 = [2, 2, 1] := by
  refine ⟨by with_unfolding_all decide, ?_⟩
  have h := processQueue_round_dispatch.1 (fun _ => some 0) 2 two_pos
    [⟨0, JobStatus.queued, 0⟩, ⟨1, JobStatus.queued, 0⟩, ⟨2, JobStatus.queued, 0⟩,
      ⟨3, JobStatus.queued, 0⟩, ⟨4, JobStatus.queued, 0⟩] (by with_unfolding_all decide)
  rw [h]
  have e : (queuedOf [⟨0, JobStatus.queued, 0⟩, ⟨1, JobStatus.queued, 0⟩,
      ⟨2, JobStatus.queued, 0⟩, ⟨3, JobStatus.queued, 0⟩,
      ⟨4, JobStatus.queued, 0⟩]).length = 5 := by
    with_unfolding_all decide
  rw [e]
  exact processQueue_round_dispatch.2
